import Mathlib

/-!
# NCM container walker (`ncm/ncm.go`)

A shallow embedding of the Go package `ncm`.  The record `NcmFile` is threaded
explicitly through every method: a Go method `func (nf *NcmFile) M() error`
becomes `M : NcmFile → NcmFile × Option Err`, the `Option Err` being Go's
`error` (`none` is `nil`).

The operating-system file behind `nf.fd` is modelled by `File`: the bytes of a
regular file, the cursor, and a script of device failures (one entry for each
system call still to come).  A source whose script is empty never fails.
Go slices are lists; a `nil` slice and an empty slice are both `[]`.
-/

namespace ncm

/-- One byte. -/
abbrev Byte := Fin 256

/-- Go `error` values that can reach the callers of this package. -/
inductive Err where
  | ErrExtNcm
  | ErrMagicHeader
  | EOF
  | ErrUnexpectedEOF
  | EINVAL
  | EIO
  deriving DecidableEq, Repr

/-- The constant `MagicHeader1`. -/
def MagicHeader1 : Nat := 0x4e455443

/-- The constant `MagicHeader2`. -/
def MagicHeader2 : Nat := 0x4d414446

/-- The struct `Data`: `Length` is a `uint64`, `Detail` a byte slice. -/
structure Data where
  Length : Nat
  Detail : List Byte
  deriving DecidableEq, Repr

/-- An `*os.File` opened on a regular file: its content, the read cursor, and
the device failures still to come (`true` makes the next system call fail with
`EIO`; an exhausted script means no further failure). -/
structure File where
  data : List Byte
  pos : Nat
  faults : List Bool
  deriving DecidableEq, Repr

/-- The struct `NcmFile`. -/
structure NcmFile where
  Path : String
  FileDir : String
  FileName : String
  fd : File
  Ext : String
  valid : Bool
  Key : Data
  Meta : Data
  Cover : Data
  Music : Data
  deriving DecidableEq, Repr

/-- The conversion `int64(x)` of a `uint64` value (two's complement). -/
def toInt64 (x : Nat) : Int :=
  if x % 2 ^ 64 < 2 ^ 63 then ((x % 2 ^ 64 : Nat) : Int) else ((x % 2 ^ 64 : Nat) : Int) - 2 ^ 64

/-- The call `fd.Seek(offset, io.SeekStart)`; the returned position is dropped
by every caller.  A negative offset is refused with `EINVAL`; an offset past
the end is accepted. -/
def File.Seek (f : File) (offset : Int) : File × Option Err :=
  match f.faults with
  | true :: rest => ({ f with faults := rest }, some Err.EIO)
  | fs =>
    let f1 : File := { f with faults := fs.tail }
    if offset < 0 then (f1, some Err.EINVAL)
    else ({ f1 with pos := offset.toNat }, none)

/-- The call `fd.Read(buf)`: returns the file, the buffer after the call, the
number of bytes read and the error.  A zero-length buffer returns `0, nil`
without a system call; at end of input the result is `0, io.EOF`; otherwise as
many bytes as the buffer holds or the file still has are copied to the front of
the buffer. -/
def File.Read (f : File) (buf : List Byte) : File × List Byte × Nat × Option Err :=
  if buf.length = 0 then (f, buf, 0, none)
  else
    match f.faults with
    | true :: rest => ({ f with faults := rest }, buf, 0, some Err.EIO)
    | fs =>
      let f1 : File := { f with faults := fs.tail }
      let got := (f.data.drop f.pos).take buf.length
      if got.length = 0 then (f1, buf, 0, some Err.EOF)
      else ({ f1 with pos := f.pos + got.length }, got ++ buf.drop got.length, got.length, none)

/-- The little-endian value of up to four bytes. -/
def leUint32 : List Byte → Nat
  | [b0, b1, b2, b3] => b0.val + 256 * b1.val + 65536 * b2.val + 16777216 * b3.val
  | _ => 0

/-- Modelled from the spec: the helper `readUint32`, whose source is not in
`ncm.go`.  It reads a 4-byte little-endian unsigned integer at the cursor; a
read that delivers fewer than four bytes is an error (`io.EOF` when nothing was
read, `io.ErrUnexpectedEOF` otherwise) and the value returned with an error
is 0. -/
def readUint32 (f : File) : File × Nat × Option Err :=
  match f.Read (List.replicate 4 0) with
  | (f1, _, _, some e) => (f1, 0, some e)
  | (f1, buf, n, none) =>
    if n < 4 then (f1, 0, some Err.ErrUnexpectedEOF) else (f1, leUint32 buf, none)

/-- Modelled from the Go library: `strings.EqualFold`, on the strings this
package passes to it.  The letters of `.ncm` have no fold partner outside
ASCII, so folding ASCII case decides the comparison. -/
def EqualFold (s t : String) : Bool :=
  s.toList.map Char.toLower == t.toList.map Char.toLower

/-- The record `NewNcmFile` returns when `os.Open` succeeds: every field but
the path parts and the handle has its zero value. -/
def NewNcmFile (path dir name ext : String) (fd : File) : NcmFile :=
  { Path := path, FileDir := dir, FileName := name, fd := fd, Ext := ext, valid := false,
    Key := ⟨0, []⟩, Meta := ⟨0, []⟩, Cover := ⟨0, []⟩, Music := ⟨0, []⟩ }

/-- The method `CheckHeader`.  The error of the first `readUint32` is
overwritten by the second call before it is tested. -/
def CheckHeader (nf : NcmFile) : NcmFile × Option Err :=
  match nf.fd.Seek 0 with
  | (f0, some e) => ({ nf with fd := f0 }, some e)
  | (f0, none) =>
    match readUint32 f0 with
    | (f1, m1, _) =>
      match readUint32 f1 with
      | (f2, _, some e) => ({ nf with fd := f2 }, some e)
      | (f2, m2, none) =>
        if m1 ≠ MagicHeader1 ∧ m2 ≠ MagicHeader2 then ({ nf with fd := f2 }, some Err.ErrMagicHeader)
        else ({ nf with fd := f2 }, none)

/-- The method `Validate`. -/
def Validate (nf : NcmFile) : NcmFile × Option Err :=
  if !EqualFold nf.Ext ".ncm" then (nf, some Err.ErrExtNcm)
  else
    match CheckHeader nf with
    | (nf1, some e) => (nf1, some e)
    | (nf1, none) => ({ nf1 with valid := true }, none)

/-- The method `getData`: file after the call, buffer, length and error. -/
def getData (f : File) (offset : Int) : File × List Byte × Nat × Option Err :=
  match f.Seek offset with
  | (f0, some e) => (f0, [], 0, some e)
  | (f0, none) =>
    match readUint32 f0 with
    | (f1, _, some e) => (f1, [], 0, some e)
    | (f1, length, none) =>
      match f1.Read (List.replicate length 0) with
      | (f2, _, _, some e) => (f2, [], 0, some e)
      | (f2, buf, _, none) => (f2, buf, length, none)

/-- The offset `4*2 + 2` at which `GetKey` reads (an untyped constant, passed
as `int64`). -/
def keyOffset : Int := 4 * 2 + 2

/-- The offset `int64(4*2 + 2 + 4 + nf.Key.Length)` at which `GetMeta` reads;
the sum is a `uint64`. -/
def metaOffset (nf : NcmFile) : Int :=
  toInt64 ((4 * 2 + 2 + 4 + nf.Key.Length) % 2 ^ 64)

/-- The offset `int64(4*2 + 2 + 4 + nf.Key.Length + 4 + nf.Meta.Length + 5 + 4)`
at which `GetCover` reads. -/
def coverOffset (nf : NcmFile) : Int :=
  toInt64 ((4 * 2 + 2 + 4 + nf.Key.Length + 4 + nf.Meta.Length + 5 + 4) % 2 ^ 64)

/-- The offset `int64(4*2+2+4+nf.Key.Length+4+nf.Meta.Length+9+4+nf.Cover.Length)`
to which `GetMusicData` seeks. -/
def musicOffset (nf : NcmFile) : Int :=
  toInt64 ((4 * 2 + 2 + 4 + nf.Key.Length + 4 + nf.Meta.Length + 9 + 4 + nf.Cover.Length) % 2 ^ 64)

/-- The method `GetKey`. -/
def GetKey (nf : NcmFile) : NcmFile × Option Err :=
  match getData nf.fd keyOffset with
  | (f1, _, _, some e) => ({ nf with fd := f1 }, some e)
  | (f1, tmp, length, none) => ({ nf with fd := f1, Key := ⟨length, tmp⟩ }, none)

/-- The method `GetMeta`. -/
def GetMeta (nf : NcmFile) : NcmFile × Option Err :=
  match getData nf.fd (metaOffset nf) with
  | (f1, _, _, some e) => ({ nf with fd := f1 }, some e)
  | (f1, tmp, length, none) => ({ nf with fd := f1, Meta := ⟨length, tmp⟩ }, none)

/-- The method `GetCover`. -/
def GetCover (nf : NcmFile) : NcmFile × Option Err :=
  match getData nf.fd (coverOffset nf) with
  | (f1, _, _, some e) => ({ nf with fd := f1 }, some e)
  | (f1, tmp, length, none) => ({ nf with fd := f1, Cover := ⟨length, tmp⟩ }, none)

/-- The `for` loop of `GetMusicData`, run for at most `fuel` iterations; `none`
means the iterations ran out before the loop returned.  `buf` is the chunk
buffer, reused by every iteration. -/
def musicLoop : Nat → File → List Byte → Data → Option (File × Data × Option Err)
  | 0, _, _, _ => none
  | fuel + 1, f, buf, music =>
    match f.Read buf with
    | (f1, buf1, length, err) =>
      if err ≠ none ∧ err ≠ some Err.EOF then some (f1, music, err)
      else
        let music1 : Data :=
          ⟨(music.Length + length) % 2 ^ 64, music.Detail ++ buf1.take length⟩
        if err = some Err.EOF then some (f1, music1, none)
        else musicLoop fuel f1 buf1 music1

/-- The method `GetMusicData` with the chunk size as a parameter.  The result
of the initial `Seek` is ignored, as in the source.  The loop gets one
iteration for every byte of the file and one more. -/
def GetMusicDataWith (chunk : Nat) (nf : NcmFile) : Option (NcmFile × Option Err) :=
  let f0 := (nf.fd.Seek (musicOffset nf)).1
  match musicLoop (f0.data.length + 1) f0 (List.replicate chunk 0) ⟨nf.Music.Length, []⟩ with
  | none => none
  | some (f1, music, err) => some ({ nf with fd := f1, Music := music }, err)

/-- The method `GetMusicData`: the chunk buffer has 1024 bytes. -/
def GetMusicData (nf : NcmFile) : Option (NcmFile × Option Err) :=
  GetMusicDataWith 1024 nf

/-- The method `Parse` (the log lines are left out). -/
def Parse (nf : NcmFile) : Option (NcmFile × Option Err) :=
  match Validate nf with
  | (nf1, some e) => some (nf1, some e)
  | (nf1, none) =>
    match GetKey nf1 with
    | (nf2, some e) => some (nf2, some e)
    | (nf2, none) =>
      match GetMeta nf2 with
      | (nf3, some e) => some (nf3, some e)
      | (nf3, none) =>
        match GetCover nf3 with
        | (nf4, some e) => some (nf4, some e)
        | (nf4, none) => GetMusicData nf4

/-- The four bytes of a `uint32` in little-endian order. -/
def le32 (n : Nat) : List Byte :=
  [Fin.ofNat n, Fin.ofNat (n / 256), Fin.ofNat (n / 65536), Fin.ofNat (n / 16777216)]

/-- The eight bytes of the two magic constants, as they lie in the file. -/
def magicBytes : List Byte := le32 MagicHeader1 ++ le32 MagicHeader2

/-- A byte source that never fails, with the cursor at `pos`. -/
def File.ofBytes (data : List Byte) (pos : Nat) : File := ⟨data, pos, []⟩

/-- The byte layout of a container: magic, two reserved bytes, the key, the
metadata and (after nine reserved bytes) the cover, each behind its length
prefix, then the rest of the file. -/
def container (r2 key meta r9 cover rest : List Byte) : List Byte :=
  magicBytes ++ r2 ++ le32 key.length ++ key ++ le32 meta.length ++ meta ++ r9 ++
    le32 cover.length ++ cover ++ rest

/-- The record `nf` with the read cursor of its handle at `p`. -/
def NcmFile.withCursor (nf : NcmFile) (p : Nat) : NcmFile :=
  { nf with fd := { nf.fd with pos := p } }

/-! ## Lemmas on the primitives -/

theorem toInt64_small (x : Nat) (h : x < 2 ^ 63) : toInt64 x = (x : Int) := by
  have h1 : x % 2 ^ 64 = x := Nat.mod_eq_of_lt (by omega)
  unfold toInt64
  rw [h1, if_pos h]

theorem Seek_reliable (data : List Byte) (pos off : Nat) :
    File.Seek ⟨data, pos, []⟩ (off : Int) = (⟨data, off, []⟩, none) := by
  simp [File.Seek]

theorem Read_reliable_nil (f : File) : f.Read [] = (f, [], 0, none) := by
  simp [File.Read]

theorem Read_reliable (data : List Byte) (pos : Nat) (buf : List Byte) (hb : buf ≠ [])
    (hp : pos < data.length) :
    File.Read ⟨data, pos, []⟩ buf =
      (⟨data, pos + min buf.length (data.length - pos), []⟩,
        (data.drop pos).take buf.length ++ buf.drop (min buf.length (data.length - pos)),
        min buf.length (data.length - pos), none) := by
  have hb1 : buf.length ≠ 0 := by simpa using hb
  have hb2 : 0 < buf.length := Nat.pos_of_ne_zero hb1
  simp [File.Read, hb, List.length_take, List.length_drop]
  omega

theorem Read_reliable_eof (data : List Byte) (pos : Nat) (buf : List Byte) (hb : buf ≠ [])
    (hp : data.length ≤ pos) :
    File.Read ⟨data, pos, []⟩ buf = (⟨data, pos, []⟩, buf, 0, some Err.EOF) := by
  simp [File.Read, hb, List.length_take, List.length_drop]
  omega

theorem leUint32_le32 (n : Nat) (h : n < 2 ^ 32) : leUint32 (le32 n) = n := by
  simp [leUint32, le32, Fin.ofNat]
  omega


theorem readUint32_reliable (pre post : List Byte) (n : Nat) (h : n < 2 ^ 32) :
    readUint32 ⟨pre ++ (le32 n ++ post), pre.length, []⟩ =
      (⟨pre ++ (le32 n ++ post), pre.length + 4, []⟩, n, none) := by
  have hv := leUint32_le32 n h
  simp [readUint32, File.Read, le32] at hv ⊢
  exact hv

theorem drop_prefix4 (pre body post : List Byte) (n : Nat) :
    (pre ++ (le32 n ++ (body ++ post))).drop (pre.length + 4) = body ++ post := by
  have h : pre ++ (le32 n ++ (body ++ post)) = (pre ++ le32 n) ++ (body ++ post) := by
    simp [List.append_assoc]
  have hl : (pre ++ le32 n).length = pre.length + 4 := by simp [le32]
  rw [h, ← hl, List.drop_left]

/-- The call `getData` on a reliable source whose section at `pre.length` is complete. -/
theorem getData_complete (pre body post : List Byte) (pos : Nat) (h : body.length < 2 ^ 32) :
    getData ⟨pre ++ (le32 body.length ++ (body ++ post)), pos, []⟩ (pre.length : Int) =
      (⟨pre ++ (le32 body.length ++ (body ++ post)), pre.length + 4 + body.length, []⟩,
        body, body.length, none) := by
  simp only [getData, Seek_reliable, readUint32_reliable pre (body ++ post) body.length h]
  by_cases hb : body = []
  · subst hb
    simp [Read_reliable_nil]
  · have hlen : 0 < body.length := List.length_pos.mpr hb
    have hr : List.replicate body.length (0 : Byte) ≠ [] := by
      intro hc
      have := congrArg List.length hc
      simp only [List.length_replicate, List.length_nil] at this
      omega
    rw [Read_reliable _ _ _ hr (by simp [le32]; omega)]
    simp only [List.length_replicate, drop_prefix4]
    have hm : min body.length
        ((pre ++ (le32 body.length ++ (body ++ post))).length - (pre.length + 4)) = body.length := by
      simp [le32]
      omega
    rw [hm]
    simp [List.take_left]

theorem musicLoop_reliable (data : List Byte) :
    ∀ (fuel pos : Nat) (buf : List Byte) (m : Data), buf ≠ [] → data.length - pos < fuel →
      musicLoop fuel ⟨data, pos, []⟩ buf m =
        some (⟨data, max pos data.length, []⟩,
          ⟨(m.Length + (data.length - pos)) % 2 ^ 64, m.Detail ++ data.drop pos⟩, none) := by
  intro fuel
  induction fuel with
  | zero => intro pos buf m _ h; omega
  | succ k ih =>
    intro pos buf m hb hf
    by_cases hp : data.length ≤ pos
    · simp only [musicLoop, Read_reliable_eof data pos buf hb hp]
      have h0 : data.length - pos = 0 := by omega
      simp [h0, List.drop_eq_nil_of_le hp, Nat.max_eq_left hp]
    · have hp1 : pos < data.length := by omega
      have hbl : 0 < buf.length := List.length_pos.mpr hb
      simp only [musicLoop, Read_reliable data pos buf hb hp1]
      generalize hn : min buf.length (data.length - pos) = n
      have hn1 : 0 < n := by omega
      have hn2 : n ≤ buf.length := by omega
      have hn3 : n ≤ data.length - pos := by omega
      have hlt : (List.take buf.length (List.drop pos data)).length = n := by
        simp [List.length_take, List.length_drop, hn]
      have hb1 : List.take buf.length (List.drop pos data) ++ List.drop n buf ≠ [] := by
        intro hc
        have := congrArg List.length hc
        simp only [List.length_append, hlt, List.length_nil] at this
        omega
      have ht : List.take n (List.take buf.length (List.drop pos data) ++ List.drop n buf) =
          List.take buf.length (List.drop pos data) := List.take_left' hlt
      have hd : List.take buf.length (List.drop pos data) ++ List.drop (pos + n) data =
          List.drop pos data := by
        have h1 : List.take buf.length (List.drop pos data) = List.take n (List.drop pos data) := by
          rw [← hn, List.take_eq_take]
          simp [List.length_drop]
        rw [h1, ← List.drop_drop, List.take_append_drop]
      simp
      rw [ih _ _ _ hb1 (by omega)]
      have hmax : max (pos + n) data.length = max pos data.length := by omega
      have hlen : ((m.Length + n) % 18446744073709551616 + (data.length - (pos + n))) % 2 ^ 64 =
          (m.Length + (data.length - pos)) % 18446744073709551616 := by omega
      simp only [ht, hmax, hlen, List.append_assoc, hd]


theorem readUint32_full (data : List Byte) (pos : Nat) (h : pos + 4 ≤ data.length) :
    readUint32 ⟨data, pos, []⟩ =
      (⟨data, pos + 4, []⟩, leUint32 ((data.drop pos).take 4), none) := by
  have hr : List.replicate 4 (0 : Byte) ≠ [] := by decide
  have hm : min 4 (data.length - pos) = 4 := by omega
  simp only [readUint32, Read_reliable data pos _ hr (by omega), List.length_replicate, hm]
  simp

theorem readUint32_short (data : List Byte) (pos : Nat) (h : data.length < pos + 4) :
    ∃ e, readUint32 ⟨data, pos, []⟩ = (⟨data, max pos data.length, []⟩, 0, some e) := by
  have hr : List.replicate 4 (0 : Byte) ≠ [] := by decide
  by_cases hp : data.length ≤ pos
  · refine ⟨Err.EOF, ?_⟩
    simp only [readUint32, Read_reliable_eof data pos _ hr hp, Nat.max_eq_left hp]
  · refine ⟨Err.ErrUnexpectedEOF, ?_⟩
    have hm : min 4 (data.length - pos) = data.length - pos := by omega
    have hmax : max pos data.length = pos + (data.length - pos) := by omega
    have hlt : data.length - pos < 4 := by omega
    simp only [readUint32, Read_reliable data pos _ hr (by omega), List.length_replicate, hm, hmax]
    simp [hlt]

/-- The method `CheckHeader` on a reliable source of at least eight bytes. -/
theorem CheckHeader_full (nf : NcmFile) (data : List Byte) (pos : Nat)
    (hfd : nf.fd = ⟨data, pos, []⟩) (h : 8 ≤ data.length) :
    CheckHeader nf =
      ({ nf with fd := ⟨data, 8, []⟩ },
        if leUint32 (data.take 4) ≠ MagicHeader1 ∧ leUint32 ((data.drop 4).take 4) ≠ MagicHeader2
        then some Err.ErrMagicHeader else none) := by
  have hs := Seek_reliable data pos 0
  simp only [Nat.cast_zero] at hs
  simp only [CheckHeader, hfd, hs, readUint32_full data 0 (by omega),
    readUint32_full data (0 + 4) (by omega), List.drop_zero]
  split <;> rfl

/-- The method `CheckHeader` on a reliable source of fewer than eight bytes. -/
theorem CheckHeader_short (nf : NcmFile) (data : List Byte) (pos : Nat)
    (hfd : nf.fd = ⟨data, pos, []⟩) (h : data.length < 8) :
    ∃ e, CheckHeader nf = ({ nf with fd := ⟨data, data.length, []⟩ }, some e) := by
  have hs := Seek_reliable data pos 0
  simp only [Nat.cast_zero] at hs
  by_cases h4 : 4 ≤ data.length
  · obtain ⟨e, he⟩ := readUint32_short data (0 + 4) (by omega)
    refine ⟨e, ?_⟩
    have hmax : max (0 + 4) data.length = data.length := by omega
    simp only [CheckHeader, hfd, hs, readUint32_full data 0 (by omega), he, hmax]
  · obtain ⟨e1, he1⟩ := readUint32_short data 0 (by omega)
    obtain ⟨e, he⟩ := readUint32_short data (max 0 data.length) (by omega)
    refine ⟨e, ?_⟩
    have hmax : max (max 0 data.length) data.length = data.length := by omega
    simp only [CheckHeader, hfd, hs, he1, he, hmax]


theorem GetMusicDataWith_reliable (chunk : Nat) (nf : NcmFile) (data : List Byte) (pos : Nat)
    (hfd : nf.fd = ⟨data, pos, []⟩) (hc : 1 ≤ chunk)
    (hoff : nf.Key.Length + nf.Meta.Length + nf.Cover.Length + 31 < 2 ^ 63) :
    GetMusicDataWith chunk nf =
      some ({ nf with
              fd := ⟨data, max (nf.Key.Length + nf.Meta.Length + nf.Cover.Length + 31) data.length, []⟩,
              Music := ⟨(nf.Music.Length +
                  (data.length - (nf.Key.Length + nf.Meta.Length + nf.Cover.Length + 31))) % 2 ^ 64,
                data.drop (nf.Key.Length + nf.Meta.Length + nf.Cover.Length + 31)⟩ }, none) := by
  have ho : musicOffset nf = ((nf.Key.Length + nf.Meta.Length + nf.Cover.Length + 31 : Nat) : Int) := by
    unfold musicOffset
    have h1 : (4 * 2 + 2 + 4 + nf.Key.Length + 4 + nf.Meta.Length + 9 + 4 + nf.Cover.Length) % 2 ^ 64 =
        nf.Key.Length + nf.Meta.Length + nf.Cover.Length + 31 := by
      omega
    rw [h1, toInt64_small _ hoff]
  have hr : List.replicate chunk (0 : Byte) ≠ [] := by
    intro hc2
    have := congrArg List.length hc2
    simp only [List.length_replicate, List.length_nil] at this
    omega
  simp only [GetMusicDataWith, hfd, ho, Seek_reliable]
  rw [musicLoop_reliable data _ _ _ _ hr (by omega)]
  simp

theorem container_split_key (r2 key meta r9 cover rest : List Byte) :
    container r2 key meta r9 cover rest =
      (magicBytes ++ r2) ++ (le32 key.length ++ (key ++
        (le32 meta.length ++ meta ++ r9 ++ le32 cover.length ++ cover ++ rest))) := by
  simp [container, List.append_assoc]

theorem container_split_meta (r2 key meta r9 cover rest : List Byte) :
    container r2 key meta r9 cover rest =
      (magicBytes ++ r2 ++ le32 key.length ++ key) ++ (le32 meta.length ++ (meta ++
        (r9 ++ le32 cover.length ++ cover ++ rest))) := by
  simp [container, List.append_assoc]

theorem container_split_cover (r2 key meta r9 cover rest : List Byte) :
    container r2 key meta r9 cover rest =
      (magicBytes ++ r2 ++ le32 key.length ++ key ++ le32 meta.length ++ meta ++ r9) ++
        (le32 cover.length ++ (cover ++ rest)) := by
  simp [container, List.append_assoc]

theorem container_length (r2 key meta r9 cover rest : List Byte)
    (h2 : r2.length = 2) (h9 : r9.length = 9) :
    (container r2 key meta r9 cover rest).length =
      key.length + meta.length + cover.length + 31 + rest.length := by
  simp only [container, magicBytes, le32, List.length_append, List.length_cons,
    List.length_nil, h2, h9]
  omega

theorem container_drop (r2 key meta r9 cover rest : List Byte)
    (h2 : r2.length = 2) (h9 : r9.length = 9) :
    (container r2 key meta r9 cover rest).drop (key.length + meta.length + cover.length + 31) =
      rest := by
  have h : container r2 key meta r9 cover rest =
      (magicBytes ++ r2 ++ le32 key.length ++ key ++ le32 meta.length ++ meta ++ r9 ++
        le32 cover.length ++ cover) ++ rest := by
    simp [container, List.append_assoc]
  have hl : (magicBytes ++ r2 ++ le32 key.length ++ key ++ le32 meta.length ++ meta ++ r9 ++
        le32 cover.length ++ cover).length = key.length + meta.length + cover.length + 31 := by
    simp only [magicBytes, le32, List.length_append, List.length_cons, List.length_nil, h2, h9]
    omega
  rw [h, ← hl, List.drop_left]

theorem Validate_reliable (nf : NcmFile) (data : List Byte) (pos : Nat)
    (hext : EqualFold nf.Ext ".ncm" = true) (hfd : nf.fd = ⟨data, pos, []⟩)
    (h : 8 ≤ data.length)
    (hm : ¬ (leUint32 (data.take 4) ≠ MagicHeader1 ∧
      leUint32 ((data.drop 4).take 4) ≠ MagicHeader2)) :
    Validate nf = ({ nf with fd := ⟨data, 8, []⟩, valid := true }, none) := by
  simp only [Validate, hext, CheckHeader_full nf data pos hfd h, if_neg hm]
  simp

theorem GetKey_complete (nf : NcmFile) (data pre body post : List Byte) (pos : Nat)
    (hfd : nf.fd = ⟨data, pos, []⟩)
    (hdata : data = pre ++ (le32 body.length ++ (body ++ post)))
    (hpre : pre.length = 10) (hb : body.length < 2 ^ 32) :
    GetKey nf = ({ nf with fd := ⟨data, 14 + body.length, []⟩,
                           Key := ⟨body.length, body⟩ }, none) := by
  have ho : keyOffset = ((pre.length : Nat) : Int) := by
    rw [hpre]
    decide
  have hp : pre.length + 4 + body.length = 14 + body.length := by omega
  simp only [GetKey, hfd, ho, hdata, getData_complete pre body post pos hb, hp]

theorem GetMeta_complete (nf : NcmFile) (data pre body post : List Byte) (pos : Nat)
    (hfd : nf.fd = ⟨data, pos, []⟩)
    (hdata : data = pre ++ (le32 body.length ++ (body ++ post)))
    (hpre : pre.length = 14 + nf.Key.Length) (hK : nf.Key.Length < 2 ^ 32)
    (hb : body.length < 2 ^ 32) :
    GetMeta nf = ({ nf with fd := ⟨data, 18 + nf.Key.Length + body.length, []⟩,
                            Meta := ⟨body.length, body⟩ }, none) := by
  have ho : metaOffset nf = ((pre.length : Nat) : Int) := by
    unfold metaOffset
    have h1 : (4 * 2 + 2 + 4 + nf.Key.Length) % 2 ^ 64 = pre.length := by omega
    rw [h1, toInt64_small _ (by omega)]
  have hp : pre.length + 4 + body.length = 18 + nf.Key.Length + body.length := by omega
  simp only [GetMeta, hfd, ho, hdata, getData_complete pre body post pos hb, hp]

theorem GetCover_complete (nf : NcmFile) (data pre body post : List Byte) (pos : Nat)
    (hfd : nf.fd = ⟨data, pos, []⟩)
    (hdata : data = pre ++ (le32 body.length ++ (body ++ post)))
    (hpre : pre.length = 27 + nf.Key.Length + nf.Meta.Length) (hK : nf.Key.Length < 2 ^ 32)
    (hM : nf.Meta.Length < 2 ^ 32) (hb : body.length < 2 ^ 32) :
    GetCover nf = ({ nf with
      fd := ⟨data, 31 + nf.Key.Length + nf.Meta.Length + body.length, []⟩,
      Cover := ⟨body.length, body⟩ }, none) := by
  have ho : coverOffset nf = ((pre.length : Nat) : Int) := by
    unfold coverOffset
    have h1 : (4 * 2 + 2 + 4 + nf.Key.Length + 4 + nf.Meta.Length + 5 + 4) % 2 ^ 64 =
        pre.length := by omega
    rw [h1, toInt64_small _ (by omega)]
  have hp : pre.length + 4 + body.length =
      31 + nf.Key.Length + nf.Meta.Length + body.length := by omega
  simp only [GetCover, hfd, ho, hdata, getData_complete pre body post pos hb, hp]

/-- The walk over a complete container held by a reliable source. -/
theorem Parse_container (path dir name ext : String) (r2 key meta r9 cover rest : List Byte)
    (hext : EqualFold ext ".ncm" = true) (h2 : r2.length = 2) (h9 : r9.length = 9)
    (hk : key.length < 2 ^ 32) (hm : meta.length < 2 ^ 32) (hc : cover.length < 2 ^ 32) :
    Parse (NewNcmFile path dir name ext (File.ofBytes (container r2 key meta r9 cover rest) 0)) =
      some ({ Path := path, FileDir := dir, FileName := name,
              fd := ⟨container r2 key meta r9 cover rest,
                (container r2 key meta r9 cover rest).length, []⟩,
              Ext := ext, valid := true,
              Key := ⟨key.length, key⟩, Meta := ⟨meta.length, meta⟩,
              Cover := ⟨cover.length, cover⟩,
              Music := ⟨rest.length % 2 ^ 64, rest⟩ }, none) := by
  generalize hD : container r2 key meta r9 cover rest = data
  have hlen : data.length = key.length + meta.length + cover.length + 31 + rest.length := by
    rw [← hD]
    exact container_length r2 key meta r9 cover rest h2 h9
  have hm1 : leUint32 (data.take 4) = MagicHeader1 := by
    rw [← hD]
    simp [container, magicBytes, le32, leUint32, MagicHeader1, Fin.ofNat]
    rfl
  have hv : Validate ⟨path, dir, name, ⟨data, 0, []⟩, ext, false, ⟨0, []⟩, ⟨0, []⟩, ⟨0, []⟩, ⟨0, []⟩⟩ =
      (⟨path, dir, name, ⟨data, 8, []⟩, ext, true, ⟨0, []⟩, ⟨0, []⟩, ⟨0, []⟩, ⟨0, []⟩⟩, none) :=
    Validate_reliable _ data 0 hext rfl (by omega) (fun h => h.1 hm1)
  have hkey : GetKey ⟨path, dir, name, ⟨data, 8, []⟩, ext, true, ⟨0, []⟩, ⟨0, []⟩, ⟨0, []⟩, ⟨0, []⟩⟩ =
      (⟨path, dir, name, ⟨data, 14 + key.length, []⟩, ext, true, ⟨key.length, key⟩,
        ⟨0, []⟩, ⟨0, []⟩, ⟨0, []⟩⟩, none) :=
    GetKey_complete _ data (magicBytes ++ r2) key _ 8 rfl
      (hD ▸ container_split_key r2 key meta r9 cover rest)
      (by simp [magicBytes, le32, h2]) hk
  have hmeta : GetMeta ⟨path, dir, name, ⟨data, 14 + key.length, []⟩, ext, true, ⟨key.length, key⟩,
        ⟨0, []⟩, ⟨0, []⟩, ⟨0, []⟩⟩ =
      (⟨path, dir, name, ⟨data, 18 + key.length + meta.length, []⟩, ext, true, ⟨key.length, key⟩,
        ⟨meta.length, meta⟩, ⟨0, []⟩, ⟨0, []⟩⟩, none) :=
    GetMeta_complete _ data (magicBytes ++ r2 ++ le32 key.length ++ key) meta _ _ rfl
      (hD ▸ container_split_meta r2 key meta r9 cover rest)
      (by simp [magicBytes, le32, h2]; omega) hk hm
  have hcover : GetCover ⟨path, dir, name, ⟨data, 18 + key.length + meta.length, []⟩, ext, true,
        ⟨key.length, key⟩, ⟨meta.length, meta⟩, ⟨0, []⟩, ⟨0, []⟩⟩ =
      (⟨path, dir, name, ⟨data, 31 + key.length + meta.length + cover.length, []⟩, ext, true,
        ⟨key.length, key⟩, ⟨meta.length, meta⟩, ⟨cover.length, cover⟩, ⟨0, []⟩⟩, none) :=
    GetCover_complete _ data
      (magicBytes ++ r2 ++ le32 key.length ++ key ++ le32 meta.length ++ meta ++ r9) cover rest _
      rfl (hD ▸ container_split_cover r2 key meta r9 cover rest)
      (by simp [magicBytes, le32, h2, h9]; omega) hk hm hc
  have hmusic := GetMusicDataWith_reliable 1024
    ⟨path, dir, name, ⟨data, 31 + key.length + meta.length + cover.length, []⟩, ext, true,
        ⟨key.length, key⟩, ⟨meta.length, meta⟩, ⟨cover.length, cover⟩, ⟨0, []⟩⟩
    data _ rfl (by omega) (by simp only []; omega)
  have hdrop : data.drop (key.length + meta.length + cover.length + 31) = rest := by
    rw [← hD]
    exact container_drop r2 key meta r9 cover rest h2 h9
  have hmax : max (key.length + meta.length + cover.length + 31) data.length = data.length := by
    omega
  have hsub : data.length - (key.length + meta.length + cover.length + 31) = rest.length := by
    omega
  simp only [hdrop, hmax, hsub, Nat.zero_add] at hmusic
  have hsteps : Parse ⟨path, dir, name, ⟨data, 0, []⟩, ext, false, ⟨0, []⟩, ⟨0, []⟩, ⟨0, []⟩, ⟨0, []⟩⟩ =
      GetMusicData ⟨path, dir, name, ⟨data, 31 + key.length + meta.length + cover.length, []⟩, ext, true,
        ⟨key.length, key⟩, ⟨meta.length, meta⟩, ⟨cover.length, cover⟩, ⟨0, []⟩⟩ := by
    simp only [Parse, hv, hkey, hmeta, hcover]
  exact hsteps.trans hmusic

theorem CheckHeader_frame (nf : NcmFile) : ∃ f, (CheckHeader nf).1 = { nf with fd := f } := by
  unfold CheckHeader
  split
  · exact ⟨_, rfl⟩
  · split
    split
    · exact ⟨_, rfl⟩
    · split <;> exact ⟨_, rfl⟩

theorem Validate_frame (nf : NcmFile) :
    (Validate nf).1.Key = nf.Key ∧ (Validate nf).1.Meta = nf.Meta ∧
      (Validate nf).1.Cover = nf.Cover ∧ (Validate nf).1.Music = nf.Music := by
  obtain ⟨f, hf⟩ := CheckHeader_frame nf
  unfold Validate
  split
  · exact ⟨rfl, rfl, rfl, rfl⟩
  · split
    · rename_i nf1 e h
      have : nf1 = { nf with fd := f } := by rw [← hf, h]
      subst this
      exact ⟨rfl, rfl, rfl, rfl⟩
    · rename_i nf1 h
      have : nf1 = { nf with fd := f } := by rw [← hf, h]
      subst this
      exact ⟨rfl, rfl, rfl, rfl⟩

theorem GetKey_frame (nf : NcmFile) :
    (GetKey nf).1.Meta = nf.Meta ∧ (GetKey nf).1.Cover = nf.Cover ∧
      (GetKey nf).1.Music = nf.Music ∧ ((GetKey nf).2 ≠ none → (GetKey nf).1.Key = nf.Key) := by
  unfold GetKey
  split
  · exact ⟨rfl, rfl, rfl, fun _ => rfl⟩
  · exact ⟨rfl, rfl, rfl, fun h => absurd rfl h⟩

theorem GetMeta_frame (nf : NcmFile) :
    (GetMeta nf).1.Key = nf.Key ∧ (GetMeta nf).1.Cover = nf.Cover ∧
      (GetMeta nf).1.Music = nf.Music ∧ ((GetMeta nf).2 ≠ none → (GetMeta nf).1.Meta = nf.Meta) := by
  unfold GetMeta
  split
  · exact ⟨rfl, rfl, rfl, fun _ => rfl⟩
  · exact ⟨rfl, rfl, rfl, fun h => absurd rfl h⟩

theorem GetCover_frame (nf : NcmFile) :
    (GetCover nf).1.Key = nf.Key ∧ (GetCover nf).1.Meta = nf.Meta ∧
      (GetCover nf).1.Music = nf.Music ∧
      ((GetCover nf).2 ≠ none → (GetCover nf).1.Cover = nf.Cover) := by
  unfold GetCover
  split
  · exact ⟨rfl, rfl, rfl, fun _ => rfl⟩
  · exact ⟨rfl, rfl, rfl, fun h => absurd rfl h⟩

theorem GetMusicData_frame (nf nf5 : NcmFile) (e : Option Err)
    (h : GetMusicData nf = some (nf5, e)) :
    nf5.Key = nf.Key ∧ nf5.Meta = nf.Meta ∧ nf5.Cover = nf.Cover := by
  simp only [GetMusicData, GetMusicDataWith] at h
  split at h
  · exact absurd h (by simp)
  · simp only [Option.some.injEq, Prod.mk.injEq] at h
    rw [← h.1]
    exact ⟨rfl, rfl, rfl⟩

theorem leUint32_lt (bs : List Byte) : leUint32 bs < 2 ^ 32 := by
  unfold leUint32
  split
  · rename_i b0 b1 b2 b3
    have h0 := b0.isLt
    have h1 := b1.isLt
    have h2 := b2.isLt
    have h3 := b3.isLt
    omega
  · decide

theorem readUint32_lt (f : File) : (readUint32 f).2.1 < 2 ^ 32 := by
  unfold readUint32
  split
  · show 0 < 2 ^ 32
    decide
  · split
    · show 0 < 2 ^ 32
      decide
    · exact leUint32_lt _

theorem getData_length_lt (f : File) (offset : Int) : (getData f offset).2.2.1 < 2 ^ 32 := by
  unfold getData
  split
  · show 0 < 2 ^ 32
    decide
  · rename_i x f0 hs
    have hl := readUint32_lt f0
    split
    · show 0 < 2 ^ 32
      decide
    · rename_i y f1 length h
      rw [h] at hl
      split
      · show 0 < 2 ^ 32
        decide
      · exact hl

theorem drop_prefix4_end (pre body : List Byte) (n : Nat) :
    (pre ++ (le32 n ++ body)).drop (pre.length + 4) = body := by
  have h := drop_prefix4 pre body [] n
  simpa using h

theorem Seek_data (f : File) (offset : Int) : (f.Seek offset).1.data = f.data := by
  unfold File.Seek
  split
  · rfl
  · split <;> rfl

theorem Read_data (f : File) (buf : List Byte) : (f.Read buf).1.data = f.data := by
  unfold File.Read
  split
  · rfl
  · split
    · rfl
    · dsimp only
      split <;> rfl

theorem readUint32_data (f : File) : (readUint32 f).1.data = f.data := by
  have h := Read_data f (List.replicate 4 0)
  unfold readUint32
  split
  · rename_i x f1 b n e heq
    rw [heq] at h
    exact h
  · rename_i x f1 buf n heq
    rw [heq] at h
    split <;> exact h

/-- A 4-byte read that starts less than four bytes before the end of the source
fails, whatever the device does. -/
theorem readUint32_error_of_short (f : File) (h : f.data.length < f.pos + 4) :
    (readUint32 f).2.2 ≠ none := by
  obtain ⟨data, pos, faults⟩ := f
  simp only at h
  unfold readUint32 File.Read
  have hmin : min 4 (data.length - pos) < 4 := by omega
  cases faults with
  | nil =>
    by_cases h0 : data.length - pos = 0
    · simp [h0]
    · simp [h0, hmin]
  | cons b rest =>
    cases b
    · by_cases h0 : data.length - pos = 0
      · simp [h0]
      · simp [h0, hmin]
    · simp

theorem Validate_error_of_CheckHeader_error (nf : NcmFile) (h : (CheckHeader nf).2 ≠ none) :
    (Validate nf).2 ≠ none ∧ (Validate nf).1.valid = nf.valid := by
  obtain ⟨f, hf⟩ := CheckHeader_frame nf
  unfold Validate
  split
  · exact ⟨by simp, rfl⟩
  · split
    · rename_i nf1 e heq
      rw [heq] at hf
      simp only at hf
      subst hf
      exact ⟨by simp, rfl⟩
    · rename_i nf1 heq
      rw [heq] at h
      exact absurd rfl h

theorem CheckHeader_error_of_tiny (nf : NcmFile) (h : nf.fd.data.length < 4) :
    (CheckHeader nf).2 ≠ none := by
  unfold CheckHeader
  split
  · simp
  · rename_i x f0 hs
    have h0 : f0.data = nf.fd.data := by
      have := Seek_data nf.fd 0
      rw [hs] at this
      exact this
    split
    rename_i y f1 m1 e1 h1
    have h1d : f1.data = nf.fd.data := by
      have := readUint32_data f0
      rw [h1] at this
      exact this.trans h0
    have h2 := readUint32_error_of_short f1 (by rw [h1d]; omega)
    split
    · simp
    · rename_i z f2 m2 h3
      rw [h3] at h2
      exact absurd rfl h2

theorem Read_ok_script (data : List Byte) (pos : Nat) (fs : List Bool) (buf : List Byte)
    (hb : buf ≠ []) (hp : pos < data.length) :
    File.Read ⟨data, pos, false :: fs⟩ buf =
      (⟨data, pos + min buf.length (data.length - pos), fs⟩,
        (data.drop pos).take buf.length ++ buf.drop (min buf.length (data.length - pos)),
        min buf.length (data.length - pos), none) := by
  have hb1 : buf.length ≠ 0 := by simpa using hb
  have hb2 : 0 < buf.length := Nat.pos_of_ne_zero hb1
  simp [File.Read, hb, List.length_take, List.length_drop]
  omega

theorem Read_fault_script (data : List Byte) (pos : Nat) (fs : List Bool) (buf : List Byte)
    (hb : buf ≠ []) :
    File.Read ⟨data, pos, true :: fs⟩ buf = (⟨data, pos, fs⟩, buf, 0, some Err.EIO) := by
  simp [File.Read, hb]

/-- The loop of `GetMusicData` when `j + 1` reads deliver bytes and the next
read fails. -/
theorem musicLoop_fault_after (data : List Byte) (chunk : Nat) (hc : 1 ≤ chunk) :
    ∀ (j fuel pos : Nat) (buf : List Byte) (m : Data) (rest : List Bool),
      buf.length = chunk → j + 1 < fuel → pos + j * chunk < data.length →
      musicLoop fuel ⟨data, pos, List.replicate (j + 1) false ++ true :: rest⟩ buf m =
        some (⟨data, pos + min ((j + 1) * chunk) (data.length - pos), rest⟩,
          ⟨(m.Length + min ((j + 1) * chunk) (data.length - pos)) % 2 ^ 64,
            m.Detail ++ (data.drop pos).take ((j + 1) * chunk)⟩, some Err.EIO) := by
  intro j
  induction j with
  | zero =>
    intro fuel pos buf m rest hb hf hp
    obtain ⟨f, rfl⟩ : ∃ f, fuel = f + 2 := ⟨fuel - 2, by omega⟩
    have hbne : buf ≠ [] := by
      intro hnil
      rw [hnil] at hb
      simp only [List.length_nil] at hb
      omega
    have hp1 : pos < data.length := by omega
    generalize hn : min buf.length (data.length - pos) = n
    have hlt : (List.take buf.length (List.drop pos data)).length = n := by
      simp [List.length_take, List.length_drop, hn]
    have hb1 : List.take buf.length (List.drop pos data) ++ List.drop n buf ≠ [] := by
      intro hcn
      have := congrArg List.length hcn
      simp only [List.length_append, hlt, List.length_nil] at this
      omega
    have ht : List.take n (List.take buf.length (List.drop pos data) ++ List.drop n buf) =
        List.take buf.length (List.drop pos data) := List.take_left' hlt
    simp only [List.replicate, List.cons_append, List.nil_append, musicLoop,
      Read_ok_script data pos _ buf hbne hp1, hn, Read_fault_script data (pos + n) rest _ hb1]
    simp [ht, hb, ← hn]
  | succ j ih =>
    intro fuel pos buf m rest hb hf hp
    obtain ⟨f, rfl⟩ : ∃ f, fuel = f + 1 := ⟨fuel - 1, by omega⟩
    have hbne : buf ≠ [] := by
      intro hnil
      rw [hnil] at hb
      simp only [List.length_nil] at hb
      omega
    have e1 : (j + 1) * chunk = j * chunk + chunk := Nat.succ_mul j chunk
    have e2 : (j + 1 + 1) * chunk = j * chunk + chunk + chunk := by
      rw [Nat.succ_mul (j + 1) chunk, e1]
    have hp1 : pos < data.length := by omega
    have hn : min buf.length (data.length - pos) = chunk := by omega
    have hlt : (List.take buf.length (List.drop pos data)).length = chunk := by
      simp [List.length_take, List.length_drop, hn]
    have hb1 : (List.take buf.length (List.drop pos data) ++ List.drop chunk buf).length =
        chunk := by
      rw [List.length_append, hlt, List.length_drop, hb]
      omega
    have ht : List.take chunk (List.take buf.length (List.drop pos data) ++ List.drop chunk buf) =
        List.take buf.length (List.drop pos data) := List.take_left' hlt
    have hrep : List.replicate (j + 1 + 1) false ++ true :: rest =
        false :: (List.replicate (j + 1) false ++ true :: rest) := by
      rw [List.replicate_succ, List.cons_append]
    rw [hrep]
    simp only [musicLoop, Read_ok_script data pos _ buf hbne hp1, hn]
    simp only [ne_eq, not_true_eq_false, false_and, if_false, reduceCtorEq]
    rw [ih f (pos + chunk) _ _ rest hb1 (by omega) (by omega)]
    have hmin1 : pos + chunk + min ((j + 1) * chunk) (data.length - (pos + chunk)) =
        pos + min ((j + 1 + 1) * chunk) (data.length - pos) := by omega
    have hmin2 : ((m.Length + chunk) % 2 ^ 64 +
        min ((j + 1) * chunk) (data.length - (pos + chunk))) % 2 ^ 64 =
        (m.Length + min ((j + 1 + 1) * chunk) (data.length - pos)) % 2 ^ 64 := by omega
    have hd : List.take buf.length (List.drop pos data) ++
        List.take ((j + 1) * chunk) (List.drop (pos + chunk) data) =
        List.take ((j + 1 + 1) * chunk) (List.drop pos data) := by
      have h3 : (j + 1 + 1) * chunk = chunk + (j + 1) * chunk := by omega
      rw [h3, List.take_add, hb, List.drop_drop]
    simp only [ht, hmin1, hmin2, List.append_assoc, hd]

theorem Seek_faults_nil (f : File) (offset : Int) (h : f.faults = []) :
    (f.Seek offset).1.faults = [] := by
  obtain ⟨data, pos, faults⟩ := f
  simp only at h
  subst h
  unfold File.Seek
  dsimp only
  split <;> rfl

theorem Read_faults_nil (f : File) (buf : List Byte) (h : f.faults = []) :
    (f.Read buf).1.faults = [] := by
  obtain ⟨data, pos, faults⟩ := f
  simp only at h
  subst h
  unfold File.Read
  dsimp only
  split
  · rfl
  · split <;> rfl

theorem readUint32_faults_nil (f : File) (h : f.faults = []) :
    (readUint32 f).1.faults = [] := by
  have hr := Read_faults_nil f (List.replicate 4 0) h
  unfold readUint32
  split
  · rename_i x f1 b n e heq
    rw [heq] at hr
    exact hr
  · rename_i x f1 buf n heq
    rw [heq] at hr
    split <;> exact hr

/-- On a reliable source `getData` leaves a reliable source with the same
bytes. -/
theorem getData_reliable_file (data : List Byte) (pos : Nat) (offset : Int) :
    ∃ q, (getData ⟨data, pos, []⟩ offset).1 = ⟨data, q, []⟩ := by
  have key : (getData ⟨data, pos, []⟩ offset).1.data = data ∧
      (getData ⟨data, pos, []⟩ offset).1.faults = [] := by
    have hs1 := Seek_data ⟨data, pos, []⟩ offset
    have hs2 := Seek_faults_nil ⟨data, pos, []⟩ offset rfl
    unfold getData
    split
    · rename_i x f0 e heq
      rw [heq] at hs1 hs2
      exact ⟨hs1, hs2⟩
    · rename_i x f0 heq
      rw [heq] at hs1 hs2
      simp only at hs1 hs2
      have hr1 := readUint32_data f0
      have hr2 := readUint32_faults_nil f0 hs2
      split
      · rename_i y f1 n e h1
        rw [h1] at hr1 hr2
        exact ⟨hr1.trans hs1, hr2⟩
      · rename_i y f1 n h1
        rw [h1] at hr1 hr2
        simp only at hr1 hr2
        have hd1 := Read_data f1 (List.replicate n 0)
        have hd2 := Read_faults_nil f1 (List.replicate n 0) hr2
        split
        · rename_i z f2 b k e h2
          rw [h2] at hd1 hd2
          exact ⟨hd1.trans (hr1.trans hs1), hd2⟩
        · rename_i z f2 b k h2
          rw [h2] at hd1 hd2
          exact ⟨hd1.trans (hr1.trans hs1), hd2⟩
  refine ⟨(getData ⟨data, pos, []⟩ offset).1.pos, ?_⟩
  generalize (getData ⟨data, pos, []⟩ offset).1 = f at key
  obtain ⟨d, q, fs⟩ := f
  simp only at key
  rw [key.1, key.2]

/-- What `getData` returns does not depend on the cursor on entry; the file it
leaves differs at most in the cursor, and not at all when the seek is
accepted. -/
theorem getData_cursor (f : File) (p : Nat) (offset : Int) :
    (getData { f with pos := p } offset).2 = (getData f offset).2 ∧
    { (getData { f with pos := p } offset).1 with pos := 0 } =
      { (getData f offset).1 with pos := 0 } ∧
    ((f.Seek offset).2 = none → getData { f with pos := p } offset = getData f offset) := by
  obtain ⟨data, pos, faults⟩ := f
  cases faults with
  | nil =>
    by_cases ho : offset < 0
    · simp [getData, File.Seek, ho]
    · simp [getData, File.Seek, ho]
  | cons b rest =>
    cases b
    · by_cases ho : offset < 0
      · simp [getData, File.Seek, ho]
      · simp [getData, File.Seek, ho]
    · simp [getData, File.Seek]

/-- On a reliable source a second `getData` at the same offset returns what
the first returned and leaves the file as the first left it. -/
theorem getData_again (data : List Byte) (pos : Nat) (offset : Int) :
    getData (getData ⟨data, pos, []⟩ offset).1 offset = getData ⟨data, pos, []⟩ offset := by
  by_cases ho : offset < 0
  · simp [getData, File.Seek, ho]
  · obtain ⟨q, hq⟩ := getData_reliable_file data pos offset
    rw [hq]
    have hs : (File.Seek ⟨data, pos, []⟩ offset).2 = none := by
      simp [File.Seek, ho]
    exact (getData_cursor ⟨data, pos, []⟩ q offset).2.2 hs

theorem GetKey_cursor (nf : NcmFile) (p : Nat) :
    (GetKey (nf.withCursor p)).2 = (GetKey nf).2 ∧
    (GetKey (nf.withCursor p)).1.withCursor 0 = (GetKey nf).1.withCursor 0 ∧
    ((nf.fd.Seek keyOffset).2 = none → GetKey (nf.withCursor p) = GetKey nf) := by
  obtain ⟨h1, h2, h3⟩ := getData_cursor nf.fd p keyOffset
  refine ⟨?_, ?_, ?_⟩
  · simp only [GetKey, NcmFile.withCursor]
    generalize getData { nf.fd with pos := p } keyOffset = a at h1 h2
    generalize getData nf.fd keyOffset = b at h1 h2
    obtain ⟨fa, ba, na, ea⟩ := a
    obtain ⟨fb, bb, nb, eb⟩ := b
    simp only [Prod.mk.injEq] at h1
    obtain ⟨rfl, rfl, rfl⟩ := h1
    cases ea <;> rfl
  · simp only [GetKey, NcmFile.withCursor]
    generalize getData { nf.fd with pos := p } keyOffset = a at h1 h2
    generalize getData nf.fd keyOffset = b at h1 h2
    obtain ⟨fa, ba, na, ea⟩ := a
    obtain ⟨fb, bb, nb, eb⟩ := b
    simp only [Prod.mk.injEq] at h1
    obtain ⟨rfl, rfl, rfl⟩ := h1
    simp only at h2
    cases ea <;> simp only [h2]
  · intro hs
    have h := h3 hs
    simp only [GetKey, NcmFile.withCursor, h]

theorem GetKey_again (nf : NcmFile) (hf : nf.fd.faults = []) :
    GetKey (GetKey nf).1 = GetKey nf := by
  obtain ⟨P, D, N, ⟨data, pos, faults⟩, E, v, K, M, C, Mu⟩ := nf
  simp only at hf
  subst hf
  have h := getData_again data pos keyOffset
  simp only [GetKey]
  generalize getData ⟨data, pos, []⟩ keyOffset = a at h ⊢
  obtain ⟨fa, ba, na, ea⟩ := a
  simp only at h
  cases ea <;> simp only [h]

theorem GetMeta_cursor (nf : NcmFile) (p : Nat) :
    (GetMeta (nf.withCursor p)).2 = (GetMeta nf).2 ∧
    (GetMeta (nf.withCursor p)).1.withCursor 0 = (GetMeta nf).1.withCursor 0 ∧
    ((nf.fd.Seek (metaOffset nf)).2 = none → GetMeta (nf.withCursor p) = GetMeta nf) := by
  obtain ⟨h1, h2, h3⟩ := getData_cursor nf.fd p (metaOffset nf)
  have ho : metaOffset (nf.withCursor p) = metaOffset nf := rfl
  refine ⟨?_, ?_, ?_⟩
  · simp only [GetMeta, ho]
    simp only [NcmFile.withCursor]
    generalize getData { nf.fd with pos := p } (metaOffset nf) = a at h1 h2
    generalize getData nf.fd (metaOffset nf) = b at h1 h2
    obtain ⟨fa, ba, na, ea⟩ := a
    obtain ⟨fb, bb, nb, eb⟩ := b
    simp only [Prod.mk.injEq] at h1
    obtain ⟨rfl, rfl, rfl⟩ := h1
    cases ea <;> rfl
  · simp only [GetMeta, ho]
    simp only [NcmFile.withCursor]
    generalize getData { nf.fd with pos := p } (metaOffset nf) = a at h1 h2
    generalize getData nf.fd (metaOffset nf) = b at h1 h2
    obtain ⟨fa, ba, na, ea⟩ := a
    obtain ⟨fb, bb, nb, eb⟩ := b
    simp only [Prod.mk.injEq] at h1
    obtain ⟨rfl, rfl, rfl⟩ := h1
    simp only at h2
    cases ea <;> simp only [h2]
  · intro hs
    have h := h3 hs
    simp only [GetMeta, ho]
    simp only [NcmFile.withCursor, h]

theorem GetCover_cursor (nf : NcmFile) (p : Nat) :
    (GetCover (nf.withCursor p)).2 = (GetCover nf).2 ∧
    (GetCover (nf.withCursor p)).1.withCursor 0 = (GetCover nf).1.withCursor 0 ∧
    ((nf.fd.Seek (coverOffset nf)).2 = none → GetCover (nf.withCursor p) = GetCover nf) := by
  obtain ⟨h1, h2, h3⟩ := getData_cursor nf.fd p (coverOffset nf)
  have ho : coverOffset (nf.withCursor p) = coverOffset nf := rfl
  refine ⟨?_, ?_, ?_⟩
  · simp only [GetCover, ho]
    simp only [NcmFile.withCursor]
    generalize getData { nf.fd with pos := p } (coverOffset nf) = a at h1 h2
    generalize getData nf.fd (coverOffset nf) = b at h1 h2
    obtain ⟨fa, ba, na, ea⟩ := a
    obtain ⟨fb, bb, nb, eb⟩ := b
    simp only [Prod.mk.injEq] at h1
    obtain ⟨rfl, rfl, rfl⟩ := h1
    cases ea <;> rfl
  · simp only [GetCover, ho]
    simp only [NcmFile.withCursor]
    generalize getData { nf.fd with pos := p } (coverOffset nf) = a at h1 h2
    generalize getData nf.fd (coverOffset nf) = b at h1 h2
    obtain ⟨fa, ba, na, ea⟩ := a
    obtain ⟨fb, bb, nb, eb⟩ := b
    simp only [Prod.mk.injEq] at h1
    obtain ⟨rfl, rfl, rfl⟩ := h1
    simp only at h2
    cases ea <;> simp only [h2]
  · intro hs
    have h := h3 hs
    simp only [GetCover, ho]
    simp only [NcmFile.withCursor, h]

theorem GetMeta_again (nf : NcmFile) (hf : nf.fd.faults = []) :
    GetMeta (GetMeta nf).1 = GetMeta nf := by
  obtain ⟨P, D, N, ⟨data, pos, faults⟩, E, v, K, M, C, Mu⟩ := nf
  simp only at hf
  subst hf
  have h := getData_again data pos
    (metaOffset ⟨P, D, N, ⟨data, pos, []⟩, E, v, K, M, C, Mu⟩)
  simp only [metaOffset] at h
  simp only [GetMeta, metaOffset]
  generalize getData ⟨data, pos, []⟩ (toInt64 ((4 * 2 + 2 + 4 + K.Length) % 2 ^ 64)) = a at h ⊢
  obtain ⟨fa, ba, na, ea⟩ := a
  simp only at h
  cases ea <;> simp only [h]

theorem GetCover_again (nf : NcmFile) (hf : nf.fd.faults = []) :
    GetCover (GetCover nf).1 = GetCover nf := by
  obtain ⟨P, D, N, ⟨data, pos, faults⟩, E, v, K, M, C, Mu⟩ := nf
  simp only at hf
  subst hf
  have h := getData_again data pos
    (coverOffset ⟨P, D, N, ⟨data, pos, []⟩, E, v, K, M, C, Mu⟩)
  simp only [coverOffset] at h
  simp only [GetCover, coverOffset]
  generalize getData ⟨data, pos, []⟩
    (toInt64 ((4 * 2 + 2 + 4 + K.Length + 4 + M.Length + 5 + 4) % 2 ^ 64)) = a at h ⊢
  obtain ⟨fa, ba, na, ea⟩ := a
  simp only at h
  cases ea <;> simp only [h]

theorem GetKey_eq_getData (nf : NcmFile) :
    (GetKey nf).2 = (getData nf.fd keyOffset).2.2.2 ∧
    (GetKey nf).1.fd = (getData nf.fd keyOffset).1 ∧
    ((GetKey nf).2 = none →
      (GetKey nf).1.Key = ⟨(getData nf.fd keyOffset).2.2.1, (getData nf.fd keyOffset).2.1⟩) := by
  unfold GetKey
  generalize getData nf.fd keyOffset = a
  obtain ⟨f, b, n, e⟩ := a
  cases e
  · exact ⟨rfl, rfl, fun _ => rfl⟩
  · exact ⟨rfl, rfl, fun h => absurd h (by simp)⟩

theorem GetMeta_eq_getData (nf : NcmFile) :
    (GetMeta nf).2 = (getData nf.fd (metaOffset nf)).2.2.2 ∧
    (GetMeta nf).1.fd = (getData nf.fd (metaOffset nf)).1 ∧
    ((GetMeta nf).2 = none →
      (GetMeta nf).1.Meta =
        ⟨(getData nf.fd (metaOffset nf)).2.2.1, (getData nf.fd (metaOffset nf)).2.1⟩) := by
  unfold GetMeta
  generalize getData nf.fd (metaOffset nf) = a
  obtain ⟨f, b, n, e⟩ := a
  cases e
  · exact ⟨rfl, rfl, fun _ => rfl⟩
  · exact ⟨rfl, rfl, fun h => absurd h (by simp)⟩

theorem GetCover_eq_getData (nf : NcmFile) :
    (GetCover nf).2 = (getData nf.fd (coverOffset nf)).2.2.2 ∧
    (GetCover nf).1.fd = (getData nf.fd (coverOffset nf)).1 ∧
    ((GetCover nf).2 = none →
      (GetCover nf).1.Cover =
        ⟨(getData nf.fd (coverOffset nf)).2.2.1, (getData nf.fd (coverOffset nf)).2.1⟩) := by
  unfold GetCover
  generalize getData nf.fd (coverOffset nf) = a
  obtain ⟨f, b, n, e⟩ := a
  cases e
  · exact ⟨rfl, rfl, fun _ => rfl⟩
  · exact ⟨rfl, rfl, fun h => absurd h (by simp)⟩

/-! ## The claims -/

/-- C1: on a reliable source laid out as magic, 2 reserved bytes, the key, the
metadata, 9 reserved bytes and the cover (each behind its 4-byte little-endian
length), followed by any bytes, `Parse` on a fresh `.ncm` record returns no
error, and the key, metadata and cover sections hold the declared lengths and
exactly the source bytes behind the length prefixes. -/
theorem Parse_extracts_sections (path dir name : String)
    (r2 key meta r9 cover rest : List Byte) (h2 : r2.length = 2) (h9 : r9.length = 9)
    (hk : key.length < 2 ^ 32) (hm : meta.length < 2 ^ 32) (hc : cover.length < 2 ^ 32) :
    ∃ nf, Parse (NewNcmFile path dir name ".ncm"
        (File.ofBytes (container r2 key meta r9 cover rest) 0)) = some (nf, none) ∧
      nf.Key.Length = key.length ∧ nf.Meta.Length = meta.length ∧
      nf.Cover.Length = cover.length ∧
      nf.Key.Detail = key ∧ nf.Meta.Detail = meta ∧ nf.Cover.Detail = cover :=
  ⟨_, Parse_container path dir name ".ncm" r2 key meta r9 cover rest (by decide) h2 h9 hk hm hc,
    rfl, rfl, rfl, rfl, rfl, rfl⟩

/-- C1 at a concrete container: key `[7]`, metadata `[8, 9]`, empty cover. -/
theorem Parse_extracts_sections_witness :
    ∃ nf, Parse (NewNcmFile "a.ncm" "." "a.ncm" ".ncm"
        (File.ofBytes (container [0, 0] [7] [8, 9] (List.replicate 9 0) [] [1, 2, 3, 4, 5]) 0)) =
          some (nf, none) ∧
      nf.Key.Length = 1 ∧ nf.Meta.Length = 2 ∧ nf.Cover.Length = 0 ∧
      nf.Key.Detail = [7] ∧ nf.Meta.Detail = [8, 9] ∧ nf.Cover.Detail = [] :=
  Parse_extracts_sections "a.ncm" "." "a.ncm" [0, 0] [7] [8, 9] (List.replicate 9 0) [] [1, 2, 3, 4, 5]
    (by decide) (by decide) (by decide) (by decide) (by decide)

set_option maxRecDepth 100000 in
/-- C2 fails as stated: with an empty key, metadata and cover, the 4-byte field
`[1, 2, 3, 4]` and the one audio byte `[9]`, the audio section after `Parse` is
the five bytes `[1, 2, 3, 4, 9]` of length 5, not `[9]` of length 1. -/
theorem Parse_audio_includes_field :
    (Parse (NewNcmFile "a.ncm" "." "a.ncm" ".ncm"
        (File.ofBytes (container [0, 0] [] [] (List.replicate 9 0) [] ([1, 2, 3, 4] ++ [9])) 0))).map
      (fun r => (r.2, r.1.Music)) = some (none, ⟨5, [1, 2, 3, 4, 9]⟩) ∧
    ¬ ∃ nf, Parse (NewNcmFile "a.ncm" "." "a.ncm" ".ncm"
        (File.ofBytes (container [0, 0] [] [] (List.replicate 9 0) [] ([1, 2, 3, 4] ++ [9])) 0)) =
          some (nf, none) ∧ nf.Music.Length = 1 ∧ nf.Music.Detail = [9] := by
  have h : Parse (NewNcmFile "a.ncm" "." "a.ncm" ".ncm"
        (File.ofBytes (container [0, 0] [] [] (List.replicate 9 0) [] ([1, 2, 3, 4] ++ [9])) 0)) =
      some (⟨"a.ncm", ".", "a.ncm",
        ⟨container [0, 0] [] [] (List.replicate 9 0) [] ([1, 2, 3, 4] ++ [9]), 36, []⟩, ".ncm", true,
        ⟨0, []⟩, ⟨0, []⟩, ⟨0, []⟩, ⟨5, [1, 2, 3, 4, 9]⟩⟩, none) := by decide
  refine ⟨by rw [h]; rfl, ?_⟩
  rintro ⟨nf, hp, hl, _⟩
  rw [h] at hp
  injection hp with hp
  injection hp with hp _
  rw [← hp] at hl
  exact absurd hl (by decide)

/-- C2 as amended: on a reliable, complete container whose cover bytes are
followed by a 4-byte field and then the audio bytes, `Parse` on a fresh `.ncm`
record succeeds, the audio section starts at `cover_start + 4 + Cover.Length`,
right behind the cover bytes, and it holds the 4-byte field followed by the
audio bytes: its length is `4 + La`. -/
theorem Parse_audio_starts_after_cover (path dir name : String)
    (r2 key meta r9 cover field audio : List Byte) (h2 : r2.length = 2) (h9 : r9.length = 9)
    (hk : key.length < 2 ^ 32) (hm : meta.length < 2 ^ 32) (hc : cover.length < 2 ^ 32)
    (hf : field.length = 4) (ha : 4 + audio.length < 2 ^ 64) :
    ∃ nf, Parse (NewNcmFile path dir name ".ncm"
        (File.ofBytes (container r2 key meta r9 cover (field ++ audio)) 0)) = some (nf, none) ∧
      musicOffset nf = coverOffset nf + 4 + nf.Cover.Length ∧
      coverOffset nf + 4 + nf.Cover.Length =
        ((key.length + meta.length + cover.length + 31 : Nat) : Int) ∧
      (container r2 key meta r9 cover (field ++ audio)).drop
        (key.length + meta.length + cover.length + 31) = field ++ audio ∧
      nf.Music.Length = 4 + audio.length ∧ nf.Music.Detail = field ++ audio := by
  have h1 : (4 * 2 + 2 + 4 + key.length + 4 + meta.length + 9 + 4 + cover.length) % 2 ^ 64 =
      key.length + meta.length + cover.length + 31 := by omega
  have h3 : (4 * 2 + 2 + 4 + key.length + 4 + meta.length + 5 + 4) % 2 ^ 64 =
      key.length + meta.length + 27 := by omega
  refine ⟨_, Parse_container path dir name ".ncm" r2 key meta r9 cover (field ++ audio)
    (by decide) h2 h9 hk hm hc, ?_, ?_, container_drop r2 key meta r9 cover _ h2 h9, ?_, rfl⟩
  · simp only [musicOffset, coverOffset]
    rw [h1, h3, toInt64_small _ (by omega), toInt64_small _ (by omega)]
    push_cast
    ring
  · simp only [coverOffset]
    rw [h3, toInt64_small _ (by omega)]
    push_cast
    ring
  · simp only [List.length_append, hf]
    exact Nat.mod_eq_of_lt ha

/-- C2 as amended, at a concrete container with the field `[1, 2, 3, 4]` and
the audio byte `[9]`. -/
theorem Parse_audio_starts_after_cover_witness :
    ∃ nf, Parse (NewNcmFile "a.ncm" "." "a.ncm" ".ncm"
        (File.ofBytes (container [0, 0] [7] [] (List.replicate 9 0) [] ([1, 2, 3, 4] ++ [9])) 0)) =
          some (nf, none) ∧
      musicOffset nf = coverOffset nf + 4 + nf.Cover.Length ∧
      coverOffset nf + 4 + nf.Cover.Length = ((1 + 0 + 0 + 31 : Nat) : Int) ∧
      (container [0, 0] [7] [] (List.replicate 9 0) [] ([1, 2, 3, 4] ++ [9])).drop (1 + 0 + 0 + 31) =
        [1, 2, 3, 4] ++ [9] ∧
      nf.Music.Length = 4 + 1 ∧ nf.Music.Detail = [1, 2, 3, 4] ++ [9] :=
  Parse_audio_starts_after_cover "a.ncm" "." "a.ncm" [0, 0] [7] [] (List.replicate 9 0) []
    [1, 2, 3, 4] [9] (by decide) (by decide) (by decide) (by decide) (by decide) (by decide)
    (by decide)

set_option maxRecDepth 100000 in
/-- C3, the code at the failing input: the first magic value is right and the
second is wrong (all zero), yet `CheckHeader` returns no error and `Validate`
sets the validity flag; the same happens when only the first value is wrong. -/
theorem Validate_accepts_one_wrong_magic :
    Validate (NewNcmFile "a.ncm" "." "a.ncm" ".ncm"
        (File.ofBytes (le32 MagicHeader1 ++ le32 0 ++ [0, 0]) 0)) =
      (⟨"a.ncm", ".", "a.ncm", ⟨le32 MagicHeader1 ++ le32 0 ++ [0, 0], 8, []⟩, ".ncm", true,
        ⟨0, []⟩, ⟨0, []⟩, ⟨0, []⟩, ⟨0, []⟩⟩, none) ∧
    Validate (NewNcmFile "a.ncm" "." "a.ncm" ".ncm"
        (File.ofBytes (le32 0 ++ le32 MagicHeader2 ++ [0, 0]) 0)) =
      (⟨"a.ncm", ".", "a.ncm", ⟨le32 0 ++ le32 MagicHeader2 ++ [0, 0], 8, []⟩, ".ncm", true,
        ⟨0, []⟩, ⟨0, []⟩, ⟨0, []⟩, ⟨0, []⟩⟩, none) ∧
    leUint32 (le32 0) ≠ MagicHeader2 ∧ leUint32 (le32 0) ≠ MagicHeader1 := by
  decide

set_option maxRecDepth 100000 in
/-- C4, the code at the failing input: the key is declared with 4 bytes and the
source ends after 2 of them.  `GetKey` returns no error and stores a key of
length 4 whose last two bytes are zero fill; `Parse` then stops in `GetMeta`.
When the source ends inside the cover, `Parse` even succeeds. -/
theorem GetKey_accepts_truncated_key :
    GetKey ⟨"a.ncm", ".", "a.ncm", ⟨magicBytes ++ [0, 0] ++ le32 4 ++ [0xAA, 0xBB], 8, []⟩,
        ".ncm", true, ⟨0, []⟩, ⟨0, []⟩, ⟨0, []⟩, ⟨0, []⟩⟩ =
      (⟨"a.ncm", ".", "a.ncm", ⟨magicBytes ++ [0, 0] ++ le32 4 ++ [0xAA, 0xBB], 16, []⟩,
        ".ncm", true, ⟨4, [0xAA, 0xBB, 0, 0]⟩, ⟨0, []⟩, ⟨0, []⟩, ⟨0, []⟩⟩, none) ∧
    Parse (NewNcmFile "a.ncm" "." "a.ncm" ".ncm"
        (File.ofBytes (magicBytes ++ [0, 0] ++ le32 4 ++ [0xAA, 0xBB]) 0)) =
      some (⟨"a.ncm", ".", "a.ncm", ⟨magicBytes ++ [0, 0] ++ le32 4 ++ [0xAA, 0xBB], 18, []⟩,
        ".ncm", true, ⟨4, [0xAA, 0xBB, 0, 0]⟩, ⟨0, []⟩, ⟨0, []⟩, ⟨0, []⟩⟩, some Err.EOF) ∧
    Parse (NewNcmFile "a.ncm" "." "a.ncm" ".ncm"
        (File.ofBytes (magicBytes ++ [0, 0] ++ le32 0 ++ le32 0 ++ List.replicate 9 0 ++
          le32 3 ++ [0xCC]) 0)) =
      some (⟨"a.ncm", ".", "a.ncm", ⟨magicBytes ++ [0, 0] ++ le32 0 ++ le32 0 ++
          List.replicate 9 0 ++ le32 3 ++ [0xCC], 34, []⟩,
        ".ncm", true, ⟨0, []⟩, ⟨0, []⟩, ⟨3, [0xCC, 0, 0]⟩, ⟨0, []⟩⟩, none) := by
  decide

/-- C5: on a reliable source, from any start offset and with any chunk buffer
of at least one byte, the read loop of `GetMusicData` returns within
`data.length - pos + 1` iterations, without error, and has appended exactly
the bytes from the start offset to the end to `Music.Detail`, adding their
number to `Music.Length` (a `uint64`); `GetMusicData` itself, with any chunk
size of at least one byte, leaves in `Music.Detail` exactly the bytes from the
offset at which the cursor stands after its `Seek`. -/
theorem GetMusicData_reads_to_end (data : List Byte) (pos chunk : Nat) (hc : 1 ≤ chunk) :
    (∀ (fuel : Nat) (buf : List Byte) (m : Data), buf.length = chunk →
      data.length - pos < fuel →
      musicLoop fuel ⟨data, pos, []⟩ buf m =
        some (⟨data, max pos data.length, []⟩,
          ⟨(m.Length + (data.drop pos).length) % 2 ^ 64, m.Detail ++ data.drop pos⟩, none)) ∧
    (∀ nf : NcmFile, nf.fd = ⟨data, pos, []⟩ →
      GetMusicDataWith chunk nf =
        some ({ nf with
            fd := ⟨data, max (nf.fd.Seek (musicOffset nf)).1.pos data.length, []⟩,
            Music := ⟨(nf.Music.Length +
                (data.drop (nf.fd.Seek (musicOffset nf)).1.pos).length) % 2 ^ 64,
              data.drop (nf.fd.Seek (musicOffset nf)).1.pos⟩ }, none)) := by
  have hne : ∀ buf : List Byte, buf.length = chunk → buf ≠ [] := by
    intro buf hb hnil
    rw [hnil] at hb
    simp only [List.length_nil] at hb
    omega
  constructor
  · intro fuel buf m hb hf
    rw [musicLoop_reliable data fuel pos buf m (hne buf hb) hf, List.length_drop]
  · intro nf hfd
    have hs : ∃ p, (nf.fd.Seek (musicOffset nf)).1 = ⟨data, p, []⟩ := by
      rw [hfd]
      simp only [File.Seek]
      split <;> exact ⟨_, rfl⟩
    obtain ⟨p, hp⟩ := hs
    simp only [GetMusicDataWith, hp]
    rw [musicLoop_reliable data _ p _ _ (hne _ (List.length_replicate _ _)) (by omega),
      List.length_drop]
    simp

set_option maxRecDepth 100000 in
/-- C5 at a concrete source: five bytes, start offset 1, chunks of 2 bytes. -/
theorem GetMusicData_reads_to_end_witness :
    musicLoop 5 ⟨[1, 2, 3, 4, 5], 1, []⟩ [0, 0] ⟨7, [9]⟩ =
      some (⟨[1, 2, 3, 4, 5], 5, []⟩, ⟨11, [9, 2, 3, 4, 5]⟩, none) :=
  (GetMusicData_reads_to_end [1, 2, 3, 4, 5] 1 2 (by decide)).1 5 [0, 0] ⟨7, [9]⟩ rfl (by decide)

set_option maxRecDepth 100000 in
/-- C6, the code at the failing input: after a successful `Parse` every section
has `Length` equal to the number of bytes in `Detail`; a second `GetMusicData`
(or a second `Parse`) on that record succeeds and leaves the two audio bytes
with `Music.Length` 4. -/
theorem GetMusicData_again_doubles_length :
    Parse (NewNcmFile "a.ncm" "." "a.ncm" ".ncm"
        (File.ofBytes (container [0, 0] [7] [] (List.replicate 9 0) [] [5, 6]) 0)) =
      some (⟨"a.ncm", ".", "a.ncm", ⟨container [0, 0] [7] [] (List.replicate 9 0) [] [5, 6], 34, []⟩,
        ".ncm", true, ⟨1, [7]⟩, ⟨0, []⟩, ⟨0, []⟩, ⟨2, [5, 6]⟩⟩, none) ∧
    GetMusicData ⟨"a.ncm", ".", "a.ncm",
        ⟨container [0, 0] [7] [] (List.replicate 9 0) [] [5, 6], 34, []⟩,
        ".ncm", true, ⟨1, [7]⟩, ⟨0, []⟩, ⟨0, []⟩, ⟨2, [5, 6]⟩⟩ =
      some (⟨"a.ncm", ".", "a.ncm", ⟨container [0, 0] [7] [] (List.replicate 9 0) [] [5, 6], 34, []⟩,
        ".ncm", true, ⟨1, [7]⟩, ⟨0, []⟩, ⟨0, []⟩, ⟨4, [5, 6]⟩⟩, none) ∧
    Parse ⟨"a.ncm", ".", "a.ncm",
        ⟨container [0, 0] [7] [] (List.replicate 9 0) [] [5, 6], 34, []⟩,
        ".ncm", true, ⟨1, [7]⟩, ⟨0, []⟩, ⟨0, []⟩, ⟨2, [5, 6]⟩⟩ =
      some (⟨"a.ncm", ".", "a.ncm", ⟨container [0, 0] [7] [] (List.replicate 9 0) [] [5, 6], 34, []⟩,
        ".ncm", true, ⟨1, [7]⟩, ⟨0, []⟩, ⟨0, []⟩, ⟨4, [5, 6]⟩⟩, none) := by
  decide

set_option maxRecDepth 100000 in
/-- C7 fails as stated: on a fresh record over a complete container with the
audio bytes `[5, 6]`, a device failure at the second read of the loop makes
`GetMusicData` the failing step; `Parse` returns its error, and the audio
section is not at its default value: it holds the chunk already read. -/
theorem Parse_failed_audio_keeps_chunk :
    Parse (NewNcmFile "a.ncm" "." "a.ncm" ".ncm"
        ⟨container [0, 0] [] [] (List.replicate 9 0) [] [5, 6], 0,
          List.replicate 11 false ++ [true]⟩) =
      some (⟨"a.ncm", ".", "a.ncm",
        ⟨container [0, 0] [] [] (List.replicate 9 0) [] [5, 6], 33, []⟩,
        ".ncm", true, ⟨0, []⟩, ⟨0, []⟩, ⟨0, []⟩, ⟨2, [5, 6]⟩⟩, some Err.EIO) ∧
    GetMusicData ⟨"a.ncm", ".", "a.ncm",
        ⟨container [0, 0] [] [] (List.replicate 9 0) [] [5, 6], 31, [false, false, true]⟩,
        ".ncm", true, ⟨0, []⟩, ⟨0, []⟩, ⟨0, []⟩, ⟨0, []⟩⟩ =
      some (⟨"a.ncm", ".", "a.ncm",
        ⟨container [0, 0] [] [] (List.replicate 9 0) [] [5, 6], 33, []⟩,
        ".ncm", true, ⟨0, []⟩, ⟨0, []⟩, ⟨0, []⟩, ⟨2, [5, 6]⟩⟩, some Err.EIO) ∧
    (⟨2, [5, 6]⟩ : Data) ≠ ⟨0, []⟩ := by
  decide

/-- C7 as amended: for a fresh record, when a step of `Parse` fails, `Parse`
returns that step's error and the record as that step left it (no later step
runs), and the sections set by earlier steps keep their values; when the
failing step is `Validate`, `GetKey`, `GetMeta` or `GetCover`, the section of
the failing step and every later section are still empty. -/
theorem Parse_stops_at_first_failure (path dir name ext : String) (fd : File) :
    (∀ nf1 e, Validate (NewNcmFile path dir name ext fd) = (nf1, some e) →
      Parse (NewNcmFile path dir name ext fd) = some (nf1, some e) ∧
      nf1.Key = ⟨0, []⟩ ∧ nf1.Meta = ⟨0, []⟩ ∧ nf1.Cover = ⟨0, []⟩ ∧ nf1.Music = ⟨0, []⟩) ∧
    (∀ nf1 nf2 e, Validate (NewNcmFile path dir name ext fd) = (nf1, none) →
      GetKey nf1 = (nf2, some e) →
      Parse (NewNcmFile path dir name ext fd) = some (nf2, some e) ∧
      nf2.Key = ⟨0, []⟩ ∧ nf2.Meta = ⟨0, []⟩ ∧ nf2.Cover = ⟨0, []⟩ ∧ nf2.Music = ⟨0, []⟩) ∧
    (∀ nf1 nf2 nf3 e, Validate (NewNcmFile path dir name ext fd) = (nf1, none) →
      GetKey nf1 = (nf2, none) → GetMeta nf2 = (nf3, some e) →
      Parse (NewNcmFile path dir name ext fd) = some (nf3, some e) ∧
      nf3.Key = nf2.Key ∧ nf3.Meta = ⟨0, []⟩ ∧ nf3.Cover = ⟨0, []⟩ ∧ nf3.Music = ⟨0, []⟩) ∧
    (∀ nf1 nf2 nf3 nf4 e, Validate (NewNcmFile path dir name ext fd) = (nf1, none) →
      GetKey nf1 = (nf2, none) → GetMeta nf2 = (nf3, none) → GetCover nf3 = (nf4, some e) →
      Parse (NewNcmFile path dir name ext fd) = some (nf4, some e) ∧
      nf4.Key = nf2.Key ∧ nf4.Meta = nf3.Meta ∧ nf4.Cover = ⟨0, []⟩ ∧ nf4.Music = ⟨0, []⟩) ∧
    (∀ nf1 nf2 nf3 nf4 nf5 e, Validate (NewNcmFile path dir name ext fd) = (nf1, none) →
      GetKey nf1 = (nf2, none) → GetMeta nf2 = (nf3, none) → GetCover nf3 = (nf4, none) →
      GetMusicData nf4 = some (nf5, some e) →
      Parse (NewNcmFile path dir name ext fd) = some (nf5, some e) ∧
      nf5.Key = nf2.Key ∧ nf5.Meta = nf3.Meta ∧ nf5.Cover = nf4.Cover) := by
  have hV := Validate_frame (NewNcmFile path dir name ext fd)
  refine ⟨?_, ?_, ?_, ?_, ?_⟩
  · intro nf1 e h1
    rw [h1] at hV
    exact ⟨by simp only [Parse, h1], hV.1, hV.2.1, hV.2.2.1, hV.2.2.2⟩
  · intro nf1 nf2 e h1 h2
    rw [h1] at hV
    have hK := GetKey_frame nf1
    rw [h2] at hK
    refine ⟨by simp only [Parse, h1, h2], ?_, ?_, ?_, ?_⟩
    · exact (hK.2.2.2 (by simp)).trans hV.1
    · exact hK.1.trans hV.2.1
    · exact hK.2.1.trans hV.2.2.1
    · exact hK.2.2.1.trans hV.2.2.2
  · intro nf1 nf2 nf3 e h1 h2 h3
    rw [h1] at hV
    have hK := GetKey_frame nf1
    rw [h2] at hK
    have hM := GetMeta_frame nf2
    rw [h3] at hM
    refine ⟨by simp only [Parse, h1, h2, h3], hM.1, ?_, ?_, ?_⟩
    · exact (hM.2.2.2 (by simp)).trans (hK.1.trans hV.2.1)
    · exact hM.2.1.trans (hK.2.1.trans hV.2.2.1)
    · exact hM.2.2.1.trans (hK.2.2.1.trans hV.2.2.2)
  · intro nf1 nf2 nf3 nf4 e h1 h2 h3 h4
    rw [h1] at hV
    have hK := GetKey_frame nf1
    rw [h2] at hK
    have hM := GetMeta_frame nf2
    rw [h3] at hM
    have hC := GetCover_frame nf3
    rw [h4] at hC
    refine ⟨by simp only [Parse, h1, h2, h3, h4], hC.1.trans hM.1, hC.2.1, ?_, ?_⟩
    · exact (hC.2.2.2 (by simp)).trans (hM.2.1.trans (hK.2.1.trans hV.2.2.1))
    · exact hC.2.2.1.trans (hM.2.2.1.trans (hK.2.2.1.trans hV.2.2.2))
  · intro nf1 nf2 nf3 nf4 nf5 e h1 h2 h3 h4 h5
    have hM := GetMeta_frame nf2
    rw [h3] at hM
    have hC := GetCover_frame nf3
    rw [h4] at hC
    have hA := GetMusicData_frame nf4 nf5 (some e) h5
    refine ⟨by simp only [Parse, h1, h2, h3, h4, h5], ?_, ?_, hA.2.2⟩
    · exact hA.1.trans (hC.1.trans hM.1)
    · exact hA.2.1.trans hC.2.1

set_option maxRecDepth 100000 in
/-- C7 as amended, at a concrete source that ends behind the key: `GetMeta` is
the failing step, the key `[7]` is kept and the later sections are empty. -/
theorem Parse_stops_at_first_failure_witness :
    Parse (NewNcmFile "a.ncm" "." "a.ncm" ".ncm"
        (File.ofBytes (magicBytes ++ [0, 0] ++ le32 1 ++ [7]) 0)) =
      some (⟨"a.ncm", ".", "a.ncm", ⟨magicBytes ++ [0, 0] ++ le32 1 ++ [7], 15, []⟩,
        ".ncm", true, ⟨1, [7]⟩, ⟨0, []⟩, ⟨0, []⟩, ⟨0, []⟩⟩, some Err.EOF) ∧
    (⟨1, [7]⟩ : Data) = ⟨1, [7]⟩ ∧ (⟨0, []⟩ : Data) = ⟨0, []⟩ ∧
      (⟨0, []⟩ : Data) = ⟨0, []⟩ ∧ (⟨0, []⟩ : Data) = ⟨0, []⟩ :=
  (Parse_stops_at_first_failure "a.ncm" "." "a.ncm" ".ncm"
      (File.ofBytes (magicBytes ++ [0, 0] ++ le32 1 ++ [7]) 0)).2.2.1
    ⟨"a.ncm", ".", "a.ncm", ⟨magicBytes ++ [0, 0] ++ le32 1 ++ [7], 8, []⟩,
      ".ncm", true, ⟨0, []⟩, ⟨0, []⟩, ⟨0, []⟩, ⟨0, []⟩⟩
    ⟨"a.ncm", ".", "a.ncm", ⟨magicBytes ++ [0, 0] ++ le32 1 ++ [7], 15, []⟩,
      ".ncm", true, ⟨1, [7]⟩, ⟨0, []⟩, ⟨0, []⟩, ⟨0, []⟩⟩
    ⟨"a.ncm", ".", "a.ncm", ⟨magicBytes ++ [0, 0] ++ le32 1 ++ [7], 15, []⟩,
      ".ncm", true, ⟨1, [7]⟩, ⟨0, []⟩, ⟨0, []⟩, ⟨0, []⟩⟩
    Err.EOF (by decide) (by decide) (by decide)

/-- C8: when `Ext` differs from `.ncm` even with case ignored, `Validate`
returns `ErrExtNcm` and the record it leaves is the record it got: no seek, no
read, the cursor and the validity flag as before.  When `Ext` equals `.ncm`
with case ignored (`.NCM` and `.Ncm` do), the result of `Validate` is the one
of `CheckHeader`, and the flag is set when that is no error. -/
theorem Validate_checks_extension_first (nf : NcmFile) :
    (EqualFold nf.Ext ".ncm" = false → Validate nf = (nf, some Err.ErrExtNcm)) ∧
    (EqualFold nf.Ext ".ncm" = true →
      (Validate nf).2 = (CheckHeader nf).2 ∧
      (Validate nf).1.fd = (CheckHeader nf).1.fd ∧
      ((CheckHeader nf).2 = none → (Validate nf).1.valid = true) ∧
      ((CheckHeader nf).2 ≠ none → (Validate nf).1 = (CheckHeader nf).1)) ∧
    EqualFold ".NCM" ".ncm" = true ∧ EqualFold ".Ncm" ".ncm" = true ∧
    EqualFold ".ncm" ".ncm" = true ∧ EqualFold ".mp3" ".ncm" = false ∧
    EqualFold "ncm" ".ncm" = false := by
  refine ⟨?_, ?_, by decide, by decide, by decide, by decide, by decide⟩
  · intro h
    simp [Validate, h]
  · intro h
    simp only [Validate, h, Bool.not_true, Bool.false_eq_true, if_false]
    split
    · rename_i nf1 e hc
      rw [hc]
      exact ⟨rfl, rfl, fun h => absurd h (by simp), fun _ => rfl⟩
    · rename_i nf1 hc
      rw [hc]
      exact ⟨rfl, rfl, fun _ => rfl, fun h => absurd rfl h⟩

set_option maxRecDepth 100000 in
/-- C8 at concrete records: the extension `.mp3` is refused with the handle
untouched, the extension `.NCM` leads to the header check. -/
theorem Validate_checks_extension_first_witness :
    Validate (NewNcmFile "a.mp3" "." "a.mp3" ".mp3" ⟨magicBytes, 3, [true]⟩) =
      (NewNcmFile "a.mp3" "." "a.mp3" ".mp3" ⟨magicBytes, 3, [true]⟩, some Err.ErrExtNcm) ∧
    (Validate (NewNcmFile "a.NCM" "." "a.NCM" ".NCM" ⟨magicBytes, 3, []⟩)).1.valid = true :=
  ⟨(Validate_checks_extension_first
      (NewNcmFile "a.mp3" "." "a.mp3" ".mp3" ⟨magicBytes, 3, [true]⟩)).1 (by decide),
   ((Validate_checks_extension_first
      (NewNcmFile "a.NCM" "." "a.NCM" ".NCM" ⟨magicBytes, 3, []⟩)).2.1 (by decide)).2.2.1
      (by decide)⟩

set_option maxRecDepth 100000 in
/-- C9, the code at the failing input: the source starts with the bytes of
`MagicHeader2`, followed by `01 02 03 04`; the first 4-byte read fails with a
device error and the second succeeds.  From entry cursor 5 as from 0,
`CheckHeader` returns no error and leaves the cursor at offset 4, not 8: the
value it took for the second magic value is the one at offset 0, and neither
the value at offset 0 nor the one at offset 4 is the constant expected there
(without the device error the same source is refused). -/
theorem CheckHeader_succeeds_with_cursor_at_four :
    CheckHeader (NewNcmFile "a.ncm" "." "a.ncm" ".ncm"
        ⟨le32 MagicHeader2 ++ [1, 2, 3, 4], 5, [false, true]⟩) =
      (NewNcmFile "a.ncm" "." "a.ncm" ".ncm" ⟨le32 MagicHeader2 ++ [1, 2, 3, 4], 4, []⟩, none) ∧
    CheckHeader (NewNcmFile "a.ncm" "." "a.ncm" ".ncm"
        ⟨le32 MagicHeader2 ++ [1, 2, 3, 4], 0, [false, true]⟩) =
      (NewNcmFile "a.ncm" "." "a.ncm" ".ncm" ⟨le32 MagicHeader2 ++ [1, 2, 3, 4], 4, []⟩, none) ∧
    leUint32 ((le32 MagicHeader2 ++ [1, 2, 3, 4]).take 4) ≠ MagicHeader1 ∧
    leUint32 (((le32 MagicHeader2 ++ [1, 2, 3, 4]).drop 4).take 4) ≠ MagicHeader2 ∧
    CheckHeader (NewNcmFile "a.ncm" "." "a.ncm" ".ncm"
        ⟨le32 MagicHeader2 ++ [1, 2, 3, 4], 5, []⟩) =
      (NewNcmFile "a.ncm" "." "a.ncm" ".ncm" ⟨le32 MagicHeader2 ++ [1, 2, 3, 4], 8, []⟩,
        some Err.ErrMagicHeader) := by
  decide

/-- The error `CheckHeader` returns is the same from every initial cursor
position (whatever failures the device has in store); on a reliable source of
at least eight bytes it is decided by the little-endian values of the bytes at
offsets 0..3 and 4..7; and on a reliable source, whenever `CheckHeader`
returns no error, the cursor is left at offset 8. -/
theorem CheckHeader_reads_from_start (nf : NcmFile) (p : Nat) :
    (CheckHeader { nf with fd := { nf.fd with pos := p } }).2 = (CheckHeader nf).2 ∧
    (nf.fd.faults = [] → 8 ≤ nf.fd.data.length →
      (CheckHeader { nf with fd := { nf.fd with pos := p } }).2 =
        if leUint32 (nf.fd.data.take 4) ≠ MagicHeader1 ∧
            leUint32 ((nf.fd.data.drop 4).take 4) ≠ MagicHeader2
        then some Err.ErrMagicHeader else none) ∧
    (nf.fd.faults = [] → (CheckHeader { nf with fd := { nf.fd with pos := p } }).2 = none →
      (CheckHeader { nf with fd := { nf.fd with pos := p } }).1.fd.pos = 8 ∧
      (CheckHeader { nf with fd := { nf.fd with pos := p } }).1 = (CheckHeader nf).1) := by
  obtain ⟨P, D, N, ⟨data, pos, faults⟩, E, v, K, M, C, Mu⟩ := nf
  refine ⟨?_, ?_, ?_⟩
  · cases faults with
    | nil => simp [CheckHeader, File.Seek]
    | cons b rest => cases b <;> simp [CheckHeader, File.Seek]
  · intro hf hlen
    simp only at hf hlen
    subst hf
    rw [CheckHeader_full _ data p rfl hlen]
  · intro hf hnone
    simp only at hf
    subst hf
    by_cases hlen : 8 ≤ data.length
    · rw [CheckHeader_full _ data p rfl hlen, CheckHeader_full _ data pos rfl hlen]
      exact ⟨rfl, rfl⟩
    · obtain ⟨e, he⟩ := CheckHeader_short
        (⟨P, D, N, ⟨data, p, []⟩, E, v, K, M, C, Mu⟩ : NcmFile) data p rfl (by omega)
      rw [he] at hnone
      exact absurd hnone (by simp)

set_option maxRecDepth 100000 in
/-- On a concrete reliable source the cursor starts at offset 5 and ends at 8. -/
theorem CheckHeader_reads_from_start_witness :
    (CheckHeader (NewNcmFile "a.ncm" "." "a.ncm" ".ncm" ⟨magicBytes ++ [1, 2, 3], 5, []⟩)).1.fd.pos = 8 :=
  ((CheckHeader_reads_from_start
      (NewNcmFile "a.ncm" "." "a.ncm" ".ncm" ⟨magicBytes ++ [1, 2, 3], 0, []⟩) 5).2.2
    rfl (by decide)).1

/-- C10: `GetKey` reads at offset 10; when `Key.Length` and `Meta.Length` are
below 2^32, `GetMeta` reads at `10 + 4 + Key.Length` and `GetCover` at the
metadata offset `+ 4 + Meta.Length + 9`, as exact non-negative integers (the
`uint64` sum and the conversion to `int64` do not wrap).  Every length that
`getData` returns, and so every length `GetKey` and `GetMeta` store, is below
2^32.  These are the offsets at which the three methods read: the error, the
handle and the section each of them leaves are the ones of `getData` at that
offset, the seek of `getData` puts the cursor of a reliable source exactly
there, and on a reliable source that holds a complete section at that offset
the method returns no error and stores the bytes behind the length prefix
found there. -/
theorem section_offsets_exact (nf : NcmFile) (hK : nf.Key.Length < 2 ^ 32)
    (hM : nf.Meta.Length < 2 ^ 32) :
    keyOffset = 10 ∧
    metaOffset nf = keyOffset + 4 + (nf.Key.Length : Int) ∧
    coverOffset nf = metaOffset nf + 4 + (nf.Meta.Length : Int) + 9 ∧
    0 ≤ metaOffset nf ∧ 0 ≤ coverOffset nf ∧
    (∀ (f : File) (offset : Int), (getData f offset).2.2.1 < 2 ^ 32) ∧
    ((GetKey nf).2 = none → (GetKey nf).1.Key.Length < 2 ^ 32) ∧
    ((GetMeta nf).2 = none → (GetMeta nf).1.Meta.Length < 2 ^ 32) ∧
    ((GetKey nf).2 = (getData nf.fd 10).2.2.2 ∧
      (GetKey nf).1.fd = (getData nf.fd 10).1 ∧
      ((GetKey nf).2 = none →
        (GetKey nf).1.Key = ⟨(getData nf.fd 10).2.2.1, (getData nf.fd 10).2.1⟩)) ∧
    ((GetMeta nf).2 = (getData nf.fd (10 + 4 + (nf.Key.Length : Int))).2.2.2 ∧
      (GetMeta nf).1.fd = (getData nf.fd (10 + 4 + (nf.Key.Length : Int))).1 ∧
      ((GetMeta nf).2 = none →
        (GetMeta nf).1.Meta = ⟨(getData nf.fd (10 + 4 + (nf.Key.Length : Int))).2.2.1,
          (getData nf.fd (10 + 4 + (nf.Key.Length : Int))).2.1⟩)) ∧
    ((GetCover nf).2 =
        (getData nf.fd (10 + 4 + (nf.Key.Length : Int) + 4 + (nf.Meta.Length : Int) + 9)).2.2.2 ∧
      (GetCover nf).1.fd =
        (getData nf.fd (10 + 4 + (nf.Key.Length : Int) + 4 + (nf.Meta.Length : Int) + 9)).1 ∧
      ((GetCover nf).2 = none →
        (GetCover nf).1.Cover =
          ⟨(getData nf.fd
              (10 + 4 + (nf.Key.Length : Int) + 4 + (nf.Meta.Length : Int) + 9)).2.2.1,
            (getData nf.fd
              (10 + 4 + (nf.Key.Length : Int) + 4 + (nf.Meta.Length : Int) + 9)).2.1⟩)) ∧
    (∀ (data : List Byte) (pos : Nat),
      File.Seek ⟨data, pos, []⟩ keyOffset = (⟨data, 10, []⟩, none) ∧
      File.Seek ⟨data, pos, []⟩ (metaOffset nf) = (⟨data, 10 + 4 + nf.Key.Length, []⟩, none) ∧
      File.Seek ⟨data, pos, []⟩ (coverOffset nf) =
        (⟨data, 10 + 4 + nf.Key.Length + 4 + nf.Meta.Length + 9, []⟩, none)) ∧
    (∀ (data pre body post : List Byte) (pos : Nat), nf.fd = ⟨data, pos, []⟩ →
      data = pre ++ (le32 body.length ++ (body ++ post)) → body.length < 2 ^ 32 →
      (pre.length = 10 →
        GetKey nf = ({ nf with fd := ⟨data, 10 + 4 + body.length, []⟩,
                               Key := ⟨body.length, body⟩ }, none)) ∧
      (pre.length = 10 + 4 + nf.Key.Length →
        GetMeta nf = ({ nf with
          fd := ⟨data, 10 + 4 + nf.Key.Length + 4 + body.length, []⟩,
          Meta := ⟨body.length, body⟩ }, none)) ∧
      (pre.length = 10 + 4 + nf.Key.Length + 4 + nf.Meta.Length + 9 →
        GetCover nf = ({ nf with
          fd := ⟨data, 10 + 4 + nf.Key.Length + 4 + nf.Meta.Length + 9 + 4 + body.length, []⟩,
          Cover := ⟨body.length, body⟩ }, none))) := by
  have hk : keyOffset = 10 := by decide
  have h1 : (4 * 2 + 2 + 4 + nf.Key.Length) % 2 ^ 64 = 14 + nf.Key.Length := by omega
  have h2 : (4 * 2 + 2 + 4 + nf.Key.Length + 4 + nf.Meta.Length + 5 + 4) % 2 ^ 64 =
      27 + nf.Key.Length + nf.Meta.Length := by omega
  have hm : metaOffset nf = ((14 + nf.Key.Length : Nat) : Int) := by
    unfold metaOffset
    rw [h1, toInt64_small _ (by omega)]
  have hc : coverOffset nf = ((27 + nf.Key.Length + nf.Meta.Length : Nat) : Int) := by
    unfold coverOffset
    rw [h2, toInt64_small _ (by omega)]
  have hm2 : (10 : Int) + 4 + (nf.Key.Length : Int) = metaOffset nf := by
    rw [hm]
    push_cast
    ring
  have hc2 : (10 : Int) + 4 + (nf.Key.Length : Int) + 4 + (nf.Meta.Length : Int) + 9 =
      coverOffset nf := by
    rw [hc]
    push_cast
    ring
  refine ⟨hk, ?_, ?_, ?_, ?_, getData_length_lt, ?_, ?_, ?_, ?_, ?_, ?_, ?_⟩
  · rw [hm, hk]
    push_cast
    ring
  · rw [hm, hc]
    push_cast
    ring
  · rw [hm]
    exact Int.ofNat_nonneg _
  · rw [hc]
    exact Int.ofNat_nonneg _
  · intro h
    have hl := getData_length_lt nf.fd keyOffset
    unfold GetKey at h ⊢
    split at h
    · exact absurd h (by simp)
    · rename_i x f1 buf n heq
      rw [heq] at hl
      exact hl
  · intro h
    have hl := getData_length_lt nf.fd (metaOffset nf)
    unfold GetMeta at h ⊢
    split at h
    · exact absurd h (by simp)
    · rename_i x f1 buf n heq
      rw [heq] at hl
      exact hl
  · rw [← hk]
    exact GetKey_eq_getData nf
  · rw [hm2]
    exact GetMeta_eq_getData nf
  · rw [hc2]
    exact GetCover_eq_getData nf
  · intro data pos
    refine ⟨?_, ?_, ?_⟩
    · rw [hk]
      exact Seek_reliable data pos 10
    · rw [hm]
      have e : 10 + 4 + nf.Key.Length = 14 + nf.Key.Length := by omega
      rw [Seek_reliable data pos (14 + nf.Key.Length), e]
    · rw [hc]
      have e : 10 + 4 + nf.Key.Length + 4 + nf.Meta.Length + 9 =
          27 + nf.Key.Length + nf.Meta.Length := by omega
      rw [Seek_reliable data pos (27 + nf.Key.Length + nf.Meta.Length), e]
  · intro data pre body post pos hfd hdata hb
    refine ⟨?_, ?_, ?_⟩
    · intro hpre
      have e : 10 + 4 + body.length = 14 + body.length := by omega
      rw [GetKey_complete nf data pre body post pos hfd hdata hpre hb, e]
    · intro hpre
      have e : 10 + 4 + nf.Key.Length + 4 + body.length = 18 + nf.Key.Length + body.length := by
        omega
      rw [GetMeta_complete nf data pre body post pos hfd hdata (by omega) hK hb, e]
    · intro hpre
      have e : 10 + 4 + nf.Key.Length + 4 + nf.Meta.Length + 9 + 4 + body.length =
          31 + nf.Key.Length + nf.Meta.Length + body.length := by omega
      rw [GetCover_complete nf data pre body post pos hfd hdata (by omega) hK hM hb, e]

set_option maxRecDepth 100000 in
/-- C10 at a concrete record: key length 5 and metadata length 7 give the
offsets 10, 19 and 39; and with the key `[7]` recorded, `GetMeta` reads the
metadata `[8, 9]` at offset 15 of a container. -/
theorem section_offsets_exact_witness :
    keyOffset = 10 ∧
    metaOffset ⟨"", "", "", ⟨[], 0, []⟩, "", false, ⟨5, []⟩, ⟨7, []⟩, ⟨0, []⟩, ⟨0, []⟩⟩ = 19 ∧
    coverOffset ⟨"", "", "", ⟨[], 0, []⟩, "", false, ⟨5, []⟩, ⟨7, []⟩, ⟨0, []⟩, ⟨0, []⟩⟩ = 39 ∧
    GetMeta ⟨"", "", "", ⟨container [0, 0] [7] [8, 9] (List.replicate 9 0) [] [], 0, []⟩, "", false,
        ⟨1, [7]⟩, ⟨0, []⟩, ⟨0, []⟩, ⟨0, []⟩⟩ =
      (⟨"", "", "", ⟨container [0, 0] [7] [8, 9] (List.replicate 9 0) [] [], 21, []⟩, "", false,
        ⟨1, [7]⟩, ⟨2, [8, 9]⟩, ⟨0, []⟩, ⟨0, []⟩⟩, none) := by
  have h := section_offsets_exact
    ⟨"", "", "", ⟨[], 0, []⟩, "", false, ⟨5, []⟩, ⟨7, []⟩, ⟨0, []⟩, ⟨0, []⟩⟩ (by decide) (by decide)
  have g := (section_offsets_exact
    ⟨"", "", "", ⟨container [0, 0] [7] [8, 9] (List.replicate 9 0) [] [], 0, []⟩, "", false,
      ⟨1, [7]⟩, ⟨0, []⟩, ⟨0, []⟩, ⟨0, []⟩⟩ (by decide) (by decide)).2.2.2.2.2.2.2.2.2.2.2.2
    (container [0, 0] [7] [8, 9] (List.replicate 9 0) [] [])
    (magicBytes ++ [0, 0] ++ le32 1 ++ [7]) [8, 9] (List.replicate 9 0 ++ le32 0) 0 rfl
    (by decide) (by decide)
  refine ⟨h.1, ?_, ?_, g.2.1 (by decide)⟩
  · rw [h.2.1, h.1]
    rfl
  · rw [h.2.2.1, h.2.1, h.1]
    rfl

set_option maxRecDepth 100000 in
/-- C11 fails as stated: the record has the key `[7]`, the source holds the
audio bytes `[1, 2, 3]`, the first read of the loop delivers them and the
second read fails with a device error.  `GetMusicData` returns that error, and
the audio section holds the three bytes with `Music.Length` 3: nothing is
discarded. -/
theorem GetMusicData_failed_read_keeps_bytes :
    GetMusicData ⟨"a.ncm", ".", "a.ncm",
        ⟨container [0, 0] [7] [] (List.replicate 9 0) [] [1, 2, 3], 32, [false, false, true]⟩,
        ".ncm", true, ⟨1, [7]⟩, ⟨0, []⟩, ⟨0, []⟩, ⟨0, []⟩⟩ =
      some (⟨"a.ncm", ".", "a.ncm",
        ⟨container [0, 0] [7] [] (List.replicate 9 0) [] [1, 2, 3], 35, []⟩,
        ".ncm", true, ⟨1, [7]⟩, ⟨0, []⟩, ⟨0, []⟩, ⟨3, [1, 2, 3]⟩⟩, some Err.EIO) ∧
    ¬ ((⟨3, [1, 2, 3]⟩ : Data).Detail = [] ∧ (⟨3, [1, 2, 3]⟩ : Data).Length = 0) := by
  decide

/-- C11 as amended: when `k ≥ 1` reads of the loop deliver bytes and the next
read fails with an error other than end-of-input, the loop, and so
`GetMusicData`, returns that error, and the bytes read so far are kept:
`Music.Detail` holds the chunks read before the failure (it is not empty) and
`Music.Length` has grown by their number of bytes. -/
theorem GetMusicData_failed_read_keeps_chunks (data : List Byte) (chunk k : Nat)
    (hc : 1 ≤ chunk) (hk : 1 ≤ k) :
    (∀ (fuel pos : Nat) (buf : List Byte) (m : Data) (rest : List Bool),
      buf.length = chunk → k < fuel → pos + (k - 1) * chunk < data.length →
      musicLoop fuel ⟨data, pos, List.replicate k false ++ true :: rest⟩ buf m =
        some (⟨data, pos + min (k * chunk) (data.length - pos), rest⟩,
          ⟨(m.Length + min (k * chunk) (data.length - pos)) % 2 ^ 64,
            m.Detail ++ (data.drop pos).take (k * chunk)⟩, some Err.EIO)) ∧
    (∀ (nf : NcmFile) (b : Bool) (rest : List Bool) (pos : Nat),
      nf.fd = ⟨data, pos, b :: (List.replicate k false ++ true :: rest)⟩ →
      (nf.fd.Seek (musicOffset nf)).1.pos + (k - 1) * chunk < data.length →
      ∃ nf1, GetMusicDataWith chunk nf = some (nf1, some Err.EIO) ∧
        nf1.Music.Detail =
          (data.drop (nf.fd.Seek (musicOffset nf)).1.pos).take (k * chunk) ∧
        nf1.Music.Detail ≠ [] ∧
        nf1.Music.Length = (nf.Music.Length + nf1.Music.Detail.length) % 2 ^ 64) := by
  obtain ⟨j, rfl⟩ : ∃ j, k = j + 1 := ⟨k - 1, by omega⟩
  have hj : j + 1 - 1 = j := by omega
  rw [hj]
  have e1 : (j + 1) * chunk = j * chunk + chunk := Nat.succ_mul j chunk
  constructor
  · intro fuel pos buf m rest hb hf hp
    exact musicLoop_fault_after data chunk hc j fuel pos buf m rest hb hf hp
  · intro nf b rest pos hfd hp
    have hs : ∃ p, (nf.fd.Seek (musicOffset nf)).1 =
        ⟨data, p, List.replicate (j + 1) false ++ true :: rest⟩ := by
      rw [hfd]
      cases b
      · simp only [File.Seek, List.tail_cons]
        split <;> exact ⟨_, rfl⟩
      · exact ⟨pos, rfl⟩
    obtain ⟨p, hps⟩ := hs
    rw [hps] at hp ⊢
    simp only at hp
    have hjle : j ≤ j * chunk := Nat.le_mul_of_pos_right j hc
    simp only [GetMusicDataWith, hps]
    rw [musicLoop_fault_after data chunk hc j _ p _ _ rest (List.length_replicate _ _)
      (by omega) hp]
    refine ⟨_, rfl, ?_, ?_, ?_⟩
    · simp
    · intro hnil
      have := congrArg List.length hnil
      simp only [List.nil_append, List.length_take, List.length_drop, List.length_nil] at this
      omega
    · simp only [List.nil_append, List.length_take, List.length_drop]

set_option maxRecDepth 100000 in
/-- C11 as amended, at a concrete source: two chunks of 2 bytes are read, the
third read fails, and the four bytes read are kept. -/
theorem GetMusicData_failed_read_keeps_chunks_witness :
    musicLoop 3 ⟨[1, 2, 3, 4, 5], 0, List.replicate 2 false ++ true :: []⟩ [0, 0] ⟨0, []⟩ =
      some (⟨[1, 2, 3, 4, 5], 4, []⟩, ⟨4, [1, 2, 3, 4]⟩, some Err.EIO) :=
  (GetMusicData_failed_read_keeps_chunks [1, 2, 3, 4, 5] 2 2 (by decide) (by decide)).1
    3 0 [0, 0] ⟨0, []⟩ [] rfl (by decide) (by decide)

set_option maxRecDepth 100000 in
/-- C12, the code at the failing inputs.  In `CheckHeader` the first 4-byte
read fails with a device error and the second succeeds: on a source that
starts with the bytes of `MagicHeader2` the result is no error at all (and
`Validate` sets the flag), on a well-formed header it is `ErrMagicHeader`; the
error of the read is returned in neither case.  In `GetMusicData` the initial
seek fails: the loop reads from where the cursor stood (offset 0) and
`GetMusicData` returns no error. -/
theorem first_read_and_seek_errors_dropped :
    (readUint32 ⟨le32 MagicHeader2 ++ [0, 0, 0, 0], 0, [true]⟩).2.2 = some Err.EIO ∧
    CheckHeader (NewNcmFile "a.ncm" "." "a.ncm" ".ncm"
        ⟨le32 MagicHeader2 ++ [0, 0, 0, 0], 0, [false, true]⟩) =
      (NewNcmFile "a.ncm" "." "a.ncm" ".ncm" ⟨le32 MagicHeader2 ++ [0, 0, 0, 0], 4, []⟩, none) ∧
    (Validate (NewNcmFile "a.ncm" "." "a.ncm" ".ncm"
        ⟨le32 MagicHeader2 ++ [0, 0, 0, 0], 0, [false, true]⟩)).1.valid = true ∧
    CheckHeader (NewNcmFile "a.ncm" "." "a.ncm" ".ncm" ⟨magicBytes ++ [0, 0], 0, [false, true]⟩) =
      (NewNcmFile "a.ncm" "." "a.ncm" ".ncm" ⟨magicBytes ++ [0, 0], 4, []⟩,
        some Err.ErrMagicHeader) ∧
    (File.Seek ⟨container [0, 0] [] [] (List.replicate 9 0) [] [5, 6], 0, [true]⟩ 31).2 =
      some Err.EIO ∧
    GetMusicData ⟨"a.ncm", ".", "a.ncm",
        ⟨container [0, 0] [] [] (List.replicate 9 0) [] [5, 6], 0, [true]⟩,
        ".ncm", true, ⟨0, []⟩, ⟨0, []⟩, ⟨0, []⟩, ⟨0, []⟩⟩ =
      some (⟨"a.ncm", ".", "a.ncm",
        ⟨container [0, 0] [] [] (List.replicate 9 0) [] [5, 6], 33, []⟩,
        ".ncm", true, ⟨0, []⟩, ⟨0, []⟩, ⟨0, []⟩,
        ⟨33, container [0, 0] [] [] (List.replicate 9 0) [] [5, 6]⟩⟩, none) := by
  decide

/-- C13: on a reliable source whose 4-byte prefix at the offset declares `L`
bytes while `k` bytes follow it to the end of the source: with `0 < k < L`,
`getData` returns no error, the length `L` and a buffer of `L` bytes, the `k`
source bytes followed by `L - k` zero bytes; with `k = 0 < L` it returns an
error, no buffer and length 0; with `L = 0` it returns an empty buffer and no
error. -/
theorem getData_short_body (pre body : List Byte) (L pos : Nat) (hL : L < 2 ^ 32) :
    (0 < body.length → body.length < L →
      getData ⟨pre ++ (le32 L ++ body), pos, []⟩ (pre.length : Int) =
        (⟨pre ++ (le32 L ++ body), (pre ++ (le32 L ++ body)).length, []⟩,
          body ++ List.replicate (L - body.length) 0, L, none)) ∧
    (body.length = 0 → 0 < L →
      getData ⟨pre ++ (le32 L ++ body), pos, []⟩ (pre.length : Int) =
        (⟨pre ++ (le32 L ++ body), pre.length + 4, []⟩, [], 0, some Err.EOF)) ∧
    (L = 0 →
      getData ⟨pre ++ (le32 L ++ body), pos, []⟩ (pre.length : Int) =
        (⟨pre ++ (le32 L ++ body), pre.length + 4, []⟩, [], 0, none)) := by
  have hlen : (pre ++ (le32 L ++ body)).length = pre.length + 4 + body.length := by
    simp only [le32, List.length_append, List.length_cons, List.length_nil]
    omega
  have hr : 0 < L → List.replicate L (0 : Byte) ≠ [] := by
    intro h0 hc
    have := congrArg List.length hc
    simp only [List.length_replicate, List.length_nil] at this
    omega
  refine ⟨?_, ?_, ?_⟩
  · intro hk0 hkL
    simp only [getData, Seek_reliable, readUint32_reliable pre body L hL]
    rw [Read_reliable _ _ _ (hr (by omega)) (by omega)]
    have hm : min (List.replicate L (0 : Byte)).length
        ((pre ++ (le32 L ++ body)).length - (pre.length + 4)) = body.length := by
      rw [hlen, List.length_replicate]
      omega
    rw [hm, drop_prefix4_end, List.length_replicate, List.take_of_length_le (by omega),
      List.drop_replicate, hlen]
  · intro hk0 hL0
    simp only [getData, Seek_reliable, readUint32_reliable pre body L hL]
    rw [Read_reliable_eof _ _ _ (hr hL0) (by omega)]
  · intro hL0
    subst hL0
    simp only [getData, Seek_reliable, readUint32_reliable pre body 0 hL, List.replicate_zero,
      Read_reliable_nil]

set_option maxRecDepth 100000 in
/-- C13 at a concrete source: 4 bytes declared, 2 present. -/
theorem getData_short_body_witness :
    getData ⟨[1, 2] ++ (le32 4 ++ [0xAA, 0xBB]), 0, []⟩ 2 =
      (⟨[1, 2] ++ (le32 4 ++ [0xAA, 0xBB]), 8, []⟩, [0xAA, 0xBB, 0, 0], 4, none) :=
  (getData_short_body [1, 2] [0xAA, 0xBB] 4 0 (by decide)).1 (by decide) (by decide)

set_option maxRecDepth 100000 in
/-- C14, the code at the failing input: the source is the four bytes of
`MagicHeader2`; the first 4-byte read fails with a device error and the second
succeeds.  The error of the first read is overwritten, `CheckHeader` returns
no error on this source of four bytes, and `Validate` sets the validity
flag. -/
theorem Validate_accepts_four_byte_source :
    (le32 MagicHeader2).length = 4 ∧
    (readUint32 ⟨le32 MagicHeader2, 0, [true]⟩).2.2 = some Err.EIO ∧
    CheckHeader (NewNcmFile "a.ncm" "." "a.ncm" ".ncm" ⟨le32 MagicHeader2, 0, [false, true]⟩) =
      (NewNcmFile "a.ncm" "." "a.ncm" ".ncm" ⟨le32 MagicHeader2, 4, []⟩, none) ∧
    Validate (NewNcmFile "a.ncm" "." "a.ncm" ".ncm" ⟨le32 MagicHeader2, 0, [false, true]⟩) =
      (⟨"a.ncm", ".", "a.ncm", ⟨le32 MagicHeader2, 4, []⟩, ".ncm", true,
        ⟨0, []⟩, ⟨0, []⟩, ⟨0, []⟩, ⟨0, []⟩⟩, none) := by
  decide

/-- On a reliable source of fewer than eight bytes (the empty one
included), `CheckHeader` returns an error, and `Validate` returns an error and
leaves the validity flag as it was; below four bytes the first 4-byte read
itself fails, its error is overwritten, and `CheckHeader` still returns an
error, then whatever the device does. -/
theorem CheckHeader_rejects_short_source (nf : NcmFile) (hlen : nf.fd.data.length < 8) :
    (nf.fd.faults = [] →
      (CheckHeader nf).2 ≠ none ∧ (Validate nf).2 ≠ none ∧ (Validate nf).1.valid = nf.valid) ∧
    (nf.fd.faults = [] → nf.fd.data.length < 4 →
      (readUint32 (nf.fd.Seek 0).1).2.2 ≠ none) ∧
    (nf.fd.data.length < 4 →
      (CheckHeader nf).2 ≠ none ∧ (Validate nf).2 ≠ none ∧ (Validate nf).1.valid = nf.valid) := by
  refine ⟨?_, ?_, ?_⟩
  · intro hf
    have hfd : nf.fd = ⟨nf.fd.data, nf.fd.pos, []⟩ := by
      rw [← hf]
    obtain ⟨e, he⟩ := CheckHeader_short nf nf.fd.data nf.fd.pos hfd hlen
    have hc : (CheckHeader nf).2 ≠ none := by
      rw [he]
      simp
    exact ⟨hc, Validate_error_of_CheckHeader_error nf hc⟩
  · intro hf h4
    apply readUint32_error_of_short
    rw [Seek_data]
    omega
  · intro h4
    have hc := CheckHeader_error_of_tiny nf h4
    exact ⟨hc, Validate_error_of_CheckHeader_error nf hc⟩

set_option maxRecDepth 100000 in
/-- On the empty reliable source and on a reliable source of the first magic
value alone `CheckHeader` and `Validate` return an error. -/
theorem CheckHeader_rejects_short_source_witness :
    ((CheckHeader (NewNcmFile "a.ncm" "." "a.ncm" ".ncm" ⟨[], 0, []⟩)).2 ≠ none ∧
      (Validate (NewNcmFile "a.ncm" "." "a.ncm" ".ncm" ⟨[], 0, []⟩)).2 ≠ none ∧
      (Validate (NewNcmFile "a.ncm" "." "a.ncm" ".ncm" ⟨[], 0, []⟩)).1.valid = false) ∧
    ((CheckHeader (NewNcmFile "a.ncm" "." "a.ncm" ".ncm" ⟨le32 MagicHeader1, 0, []⟩)).2 ≠ none ∧
      (Validate (NewNcmFile "a.ncm" "." "a.ncm" ".ncm" ⟨le32 MagicHeader1, 0, []⟩)).2 ≠ none ∧
      (Validate (NewNcmFile "a.ncm" "." "a.ncm" ".ncm" ⟨le32 MagicHeader1, 0, []⟩)).1.valid =
        false) :=
  ⟨(CheckHeader_rejects_short_source (NewNcmFile "a.ncm" "." "a.ncm" ".ncm" ⟨[], 0, []⟩)
      (by decide)).2.2 (by decide),
   (CheckHeader_rejects_short_source
      (NewNcmFile "a.ncm" "." "a.ncm" ".ncm" ⟨le32 MagicHeader1, 0, []⟩) (by decide)).1 rfl⟩

/-- C15: the error that `GetKey`, `GetMeta` and `GetCover` return and the
record they leave do not depend on the position of the cursor on entry; the
handle they leave differs at most in its cursor, and not at all when the seek
is accepted.  On a reliable source, calling one of them a second time returns
the same error and leaves the same record, handle and cursor as the first
call. -/
theorem section_reads_ignore_cursor (nf : NcmFile) (p : Nat) :
    ((GetKey (nf.withCursor p)).2 = (GetKey nf).2 ∧
      (GetKey (nf.withCursor p)).1.withCursor 0 = (GetKey nf).1.withCursor 0 ∧
      ((nf.fd.Seek keyOffset).2 = none → GetKey (nf.withCursor p) = GetKey nf)) ∧
    ((GetMeta (nf.withCursor p)).2 = (GetMeta nf).2 ∧
      (GetMeta (nf.withCursor p)).1.withCursor 0 = (GetMeta nf).1.withCursor 0 ∧
      ((nf.fd.Seek (metaOffset nf)).2 = none → GetMeta (nf.withCursor p) = GetMeta nf)) ∧
    ((GetCover (nf.withCursor p)).2 = (GetCover nf).2 ∧
      (GetCover (nf.withCursor p)).1.withCursor 0 = (GetCover nf).1.withCursor 0 ∧
      ((nf.fd.Seek (coverOffset nf)).2 = none → GetCover (nf.withCursor p) = GetCover nf)) ∧
    (nf.fd.faults = [] →
      GetKey (GetKey nf).1 = GetKey nf ∧ GetMeta (GetMeta nf).1 = GetMeta nf ∧
      GetCover (GetCover nf).1 = GetCover nf) :=
  ⟨GetKey_cursor nf p, GetMeta_cursor nf p, GetCover_cursor nf p,
    fun hf => ⟨GetKey_again nf hf, GetMeta_again nf hf, GetCover_again nf hf⟩⟩

set_option maxRecDepth 100000 in
/-- C15 at a concrete record: `GetKey` from cursor 3 and from cursor 0 agree,
and a second `GetKey` changes nothing. -/
theorem section_reads_ignore_cursor_witness :
    GetKey ((NewNcmFile "a.ncm" "." "a.ncm" ".ncm"
        ⟨magicBytes ++ [0, 0] ++ le32 1 ++ [7], 0, []⟩).withCursor 3) =
      GetKey (NewNcmFile "a.ncm" "." "a.ncm" ".ncm" ⟨magicBytes ++ [0, 0] ++ le32 1 ++ [7], 0, []⟩) ∧
    GetKey (GetKey (NewNcmFile "a.ncm" "." "a.ncm" ".ncm"
        ⟨magicBytes ++ [0, 0] ++ le32 1 ++ [7], 0, []⟩)).1 =
      GetKey (NewNcmFile "a.ncm" "." "a.ncm" ".ncm" ⟨magicBytes ++ [0, 0] ++ le32 1 ++ [7], 0, []⟩) :=
  ⟨(section_reads_ignore_cursor (NewNcmFile "a.ncm" "." "a.ncm" ".ncm"
      ⟨magicBytes ++ [0, 0] ++ le32 1 ++ [7], 0, []⟩) 3).1.2.2 (by decide),
   ((section_reads_ignore_cursor (NewNcmFile "a.ncm" "." "a.ncm" ".ncm"
      ⟨magicBytes ++ [0, 0] ++ le32 1 ++ [7], 0, []⟩) 3).2.2.2 rfl).1⟩

end ncm
